import Mathlib

/-!
Verification development for the greedy minimum-feedback-arc-set ordering
algorithm in `src/sfas/greedy.py` (function `compute_order` and its helpers).

The Python code is shallowly embedded below.  Design notes on the embedding:

* Node identifiers supplied by the caller are modelled as `Int` (the code
  accepts any hashable comparable value); edge weights are `Int` (Python
  integers, possibly negative since the code performs no validation).
* The pair of mutable dictionaries `input_dict` / `output_dict` is modelled by
  two total functions into `Option Int` (`none` = key absent), carried in a
  state record together with the key set `remaining`, the bucket index, the
  node-to-bucket-key index, the running `feedback` value and the two output
  lists.  Each Python mutation is mirrored on both maps separately, so the
  symmetry between the two maps is a provable invariant, not a definitional
  one.
* `buckets` (a dict from keys to nonempty sets) is modelled as a finite set of
  (key, node) pairs; a key "exists" iff some pair with that key is present,
  which matches the Python invariant that empty buckets are deleted at once.
* Python's `set.pop()` returns an arbitrary element; the spec explicitly allows
  any fixed deterministic tie-break policy, and the embedding picks the
  minimum.  `random.shuffle` (explicitly out of scope in the spec, only its
  reproducible-given-a-seed contract is required) is modelled by a seeded
  rotation, a deterministic permutation of the list.  Python `dict`/`set`
  iteration orders are modelled by fixed enumeration orders; all folds below
  are order-independent on the reachable states.
* Failures (`KeyError` from missing dict keys or `set.remove`, `ValueError`
  from `max()` on an empty collection, `AssertionError` from the sanity
  checks, `IndexError` from a malformed input row) are modelled with `Except`.
* The `while` loop is modelled with fuel; `compute_order` supplies fuel equal
  to the number of nodes, which is exactly the number of iterations the loop
  performs, so the artificial `fuelOut` error is unreachable.
-/

namespace Sfas

/-- An input edge row `[<from node>, <to node>, <edge weight>]`. -/
abbrev Edge := Int × Int × Int

/-- An edge after node ids have been compacted to `0, ..., N-1`. -/
abbrev CEdge := Nat × Nat × Int

/-- The ways the Python code can raise: `KeyError` (missing dict key /
`set.remove` on an absent element), `ValueError` (`max()` of an empty
collection), `AssertionError` (a failing `assert`), `IndexError` (a malformed
input row), and the fuel artifact of the loop embedding (unreachable). -/
inductive Err where
  | keyError
  | valueError
  | assertionError
  | indexError
  | fuelOut
  deriving DecidableEq, Repr

instance {e a : Type} [DecidableEq e] [DecidableEq a] :
    DecidableEq (Except e a) := fun x y =>
  match x, y with
  | .ok u, .ok v =>
    if h : u = v then isTrue (congrArg Except.ok h)
    else isFalse (fun hc => h (Except.ok.inj hc))
  | .ok _, .error _ => isFalse (fun hc => Except.noConfusion hc)
  | .error _, .ok _ => isFalse (fun hc => Except.noConfusion hc)
  | .error u, .error v =>
    if h : u = v then isTrue (congrArg Except.error h)
    else isFalse (fun hc => h (Except.error.inj hc))

/-- A bucket key: `'sinks'`, `'sources'`, or the numeric out-minus-in weight
delta. -/
inductive BKey where
  | sinks
  | sources
  | delta (d : Int)
  deriving DecidableEq, Repr

/-- The numeric value of a `delta` key (`0` for the two symbolic keys; only
used on numeric keys). -/
def BKey.dval : BKey → Int
  | .delta d => d
  | _ => 0

/-- The mutable state of `compute_order` after node compaction: the two
adjacency maps (`inW t s` = `input_dict[t][s]`, the current weight of the edge
`s → t`; `outW s t` = `output_dict[s][t]`), the common key set `remaining` of
the two dicts, the bucket index as a set of (key, node) pairs, the
node-to-bucket-key index, the running feedback total, and the two partial
orders. -/
structure GState where
  inW : Nat → Nat → Option Int
  outW : Nat → Nat → Option Int
  remaining : Finset Nat
  buckets : Finset (BKey × Nat)
  nodeKey : Nat → BKey
  feedback : Int
  left : List Nat
  right : List Nat

/-- `nodes_from_connections_table`: the set of ids appearing as an endpoint. -/
def nodes_from_connections_table (t : List Edge) : Finset Int :=
  (t.map (fun r => r.1)).toFinset ∪ (t.map (fun r => r.2.1)).toFinset

/-- The node universe as a duplicate-free list (a fixed enumeration of the
Python set `node_list`). -/
def universeList (c : List Edge) : List Int :=
  (c.map (fun r => r.1) ++ c.map (fun r => r.2.1)).dedup

/-- Modelled from the spec: `random.shuffle` seeded with `random_seed` is out
of scope; only its contract (a reproducible, seed-determined permutation of
the list) is required.  The model rotates the list by an amount derived from
the seed. -/
def shuffleModel (seed : Nat) (l : List Int) : List Int :=
  l.drop (seed % (l.length + 1)) ++ l.take (seed % (l.length + 1))

/-- The shuffled node list; `nodes_compacted` maps its `i`-th element to `i`. -/
def nodeOrderOf (c : List Edge) (seed : Nat) : List Int :=
  shuffleModel seed (universeList c)

/-- Map edge endpoints to compacted ids (positions in the shuffled list). -/
def compactify (no : List Int) (c : List Edge) : List CEdge :=
  c.map (fun r => (List.indexOf r.1 no, List.indexOf r.2.1 no, r.2.2))

/-- `compact_dict` applied to `input_lists[t]`: the row of `input_dict` at
`t`, i.e. the summed weight of the parallel edges `s → t` (`none` if there is
no such edge).  Built the way the code builds it: select the rows of the
adjacency list of `t`, then group by the other endpoint and sum. -/
def initInW (ce : List CEdge) (t s : Nat) : Option Int :=
  let l := (ce.filter (fun r => r.2.1 = t)).filter (fun r => r.1 = s)
  if l = [] then none else some ((l.map (fun r => r.2.2)).sum)

/-- `compact_dict` applied to `output_lists[s]`: the row of `output_dict` at
`s`. -/
def initOutW (ce : List CEdge) (s t : Nat) : Option Int :=
  let l := (ce.filter (fun r => r.1 = s)).filter (fun r => r.2.1 = t)
  if l = [] then none else some ((l.map (fun r => r.2.2)).sum)

/-- The state right after `input_dict` and `output_dict` are built (buckets
not yet populated). -/
def initGraph (nn : Nat) (ce : List CEdge) : GState where
  inW := fun t s => initInW ce t s
  outW := fun s t => initOutW ce s t
  remaining := Finset.range nn
  buckets := ∅
  nodeKey := fun _ => BKey.sinks
  feedback := 0
  left := []
  right := []

/-- The first sanity-check block (lines 69-75): every entry of either map has
the mirrored entry with the same weight in the other map. -/
def symCheck (nn : Nat) (S : GState) : Prop :=
  (∀ t ∈ Finset.range nn, ∀ s ∈ Finset.range nn,
      S.inW t s ≠ none → S.outW s t = S.inW t s) ∧
  (∀ s ∈ Finset.range nn, ∀ t ∈ Finset.range nn,
      S.outW s t ≠ none → S.inW t s = S.outW s t)

instance (nn : Nat) (S : GState) : Decidable (symCheck nn S) := by
  unfold symCheck; infer_instance

/-- The sanity-check block after anti-parallel removal (lines 111-119):
mirrored entries agree, and no pair of entries in opposite directions
remains. -/
def apCheck (nn : Nat) (S : GState) : Prop :=
  (∀ t ∈ Finset.range nn, ∀ s ∈ Finset.range nn,
      S.inW t s ≠ none → S.outW s t = S.inW t s ∧ S.inW s t = none) ∧
  (∀ s ∈ Finset.range nn, ∀ t ∈ Finset.range nn,
      S.outW s t ≠ none → S.inW t s = S.outW s t ∧ S.outW t s = none)

instance (nn : Nat) (S : GState) : Decidable (apCheck nn S) := by
  unfold apCheck; infer_instance

/-- A failing `assert` raises `AssertionError`. -/
def checkE (p : Prop) [Decidable p] : Except Err Unit :=
  if p then .ok () else .error .assertionError

/-- The list `anti_parallel_edges`: pairs `(ind, nd)` with `nd < ind` such
that both `ind → nd` and `nd → ind` are present (each unordered pair appears
once). -/
def antiPairs (nn : Nat) (S : GState) : List (Nat × Nat) :=
  (List.range nn).flatMap (fun nd =>
    ((List.range nn).filter (fun ind =>
        decide (S.inW nd ind ≠ none) && decide (nd < ind) &&
        decide (S.inW ind nd ≠ none))).map (fun ind => (ind, nd)))

/-- Update one entry of a two-argument map. -/
def upd2 (w : Nat → Nat → Option Int) (a b : Nat) (v : Option Int) :
    Nat → Nat → Option Int :=
  fun s t => if s = a ∧ t = b then v else w s t

/-- The body of the anti-parallel removal loop for one pair `(n1, n2)`:
read `w12 = output_dict[n1][n2]` and `w21 = output_dict[n2][n1]` (checking the
mirrored entries, as the code's `assert`s do), delete the lighter edge from
both maps, subtract its weight from the heavier edge in both maps, and add the
lighter weight to the feedback total. -/
def resolvePair (S : GState) (p : Nat × Nat) : Except Err GState :=
  match S.outW p.1 p.2 with
  | none => .error .keyError
  | some w12 =>
    if S.inW p.2 p.1 ≠ some w12 then .error .assertionError
    else
      match S.outW p.2 p.1 with
      | none => .error .keyError
      | some w21 =>
        if S.inW p.1 p.2 ≠ some w21 then .error .assertionError
        else if w12 > w21 then
          .ok { S with
            outW := upd2 (upd2 S.outW p.2 p.1 none) p.1 p.2 (some (w12 - w21))
            inW := upd2 (upd2 S.inW p.1 p.2 none) p.2 p.1 (some (w12 - w21))
            feedback := S.feedback + w21 }
        else
          .ok { S with
            outW := upd2 (upd2 S.outW p.1 p.2 none) p.2 p.1 (some (w21 - w12))
            inW := upd2 (upd2 S.inW p.2 p.1 none) p.1 p.2 (some (w21 - w12))
            feedback := S.feedback + w12 }

/-- The whole anti-parallel removal phase. -/
def resolveAll (nn : Nat) (S : GState) : Except Err GState :=
  (antiPairs nn S).foldlM resolvePair S

/-- Sum of the values of the row of a map at `n` (the dict values live on
compacted ids `< nn`). -/
def rowSum (w : Nat → Nat → Option Int) (nn n : Nat) : Int :=
  ∑ m ∈ Finset.range nn, (w n m).getD 0

/-- `compute_bucket_key_for_node`, parametrized by the two adjacency maps. -/
def bucketKeyW (nn : Nat) (oW iW : Nat → Nat → Option Int) (n : Nat) : BKey :=
  if ∀ m ∈ Finset.range nn, oW n m = none then .sinks
  else if ∀ m ∈ Finset.range nn, iW n m = none then .sources
  else .delta (rowSum oW nn n - rowSum iW nn n)

/-- `compute_bucket_key_for_node` on a state. -/
def bucketKey (nn : Nat) (S : GState) (n : Nat) : BKey :=
  bucketKeyW nn S.outW S.inW n

/-- Populate the buckets and the node-to-bucket-key index (lines 150-158). -/
def initBuckets (nn : Nat) (S : GState) : GState :=
  { S with
    buckets := (Finset.range nn).image (fun n => (bucketKey nn S n, n))
    nodeKey := fun n => bucketKey nn S n }

/-- The members of the bucket with key `k`. -/
def bucketSet (B : Finset (BKey × Nat)) (k : BKey) : Finset Nat :=
  (B.filter (fun p => p.1 = k)).image (fun p => p.2)

/-- `pop_from_bucket`: take an element (the model pops the minimum) out of the
bucket with key `k`; `KeyError` when no such bucket exists. -/
def popFrom (B : Finset (BKey × Nat)) (k : BKey) :
    Except Err (Nat × Finset (BKey × Nat)) :=
  if h : (bucketSet B k).Nonempty then
    .ok ((bucketSet B k).min' h, B.erase (k, (bucketSet B k).min' h))
  else .error .keyError

/-- `remove_from_bucket`: remove a specific node from a specific bucket;
`KeyError` when the bucket is missing or the node is not in it. -/
def removeFrom (B : Finset (BKey × Nat)) (k : BKey) (n : Nat) :
    Except Err (Finset (BKey × Nat)) :=
  if (k, n) ∈ B then .ok (B.erase (k, n)) else .error .keyError

/-- `max(buckets.keys() - {'sinks', 'sources'})`: the largest numeric key;
`ValueError` when there is none. -/
def maxDeltaKey (B : Finset (BKey × Nat)) : Except Err Int :=
  let ds := (B.filter (fun p => p.1 ≠ BKey.sinks ∧ p.1 ≠ BKey.sources)).image
    (fun p => p.1.dval)
  if h : ds.Nonempty then .ok (ds.max' h) else .error .valueError

/-- The keys of the row of a map at `n` (within the compacted universe). -/
def inKeys (nn : Nat) (w : Nat → Nat → Option Int) (n : Nat) : Finset Nat :=
  (Finset.range nn).filter (fun m => w n m ≠ none)

/-- One pass of the bucket-and-index maintenance loop at the end of
`update_removed_node`: remove the affected neighbor from its indexed bucket
(a `KeyError` here is a real crash of the Python code), recompute its key on
the already updated maps `oW`/`iW`, reinsert it and update the index. -/
def bucketFixStep (nn : Nat) (oW iW : Nat → Nat → Option Int) (T : GState)
    (io : Nat) : Except Err GState :=
  (removeFrom T.buckets (T.nodeKey io) io).bind (fun B =>
    let k := bucketKeyW nn oW iW io
    .ok { T with
      buckets := insert (k, io) B
      nodeKey := fun m => if m = io then k else T.nodeKey m })

/-- The whole bucket maintenance loop over the affected neighbors. -/
def bucketFix (nn : Nat) (oW iW : Nat → Nat → Option Int) (l : List Nat)
    (T : GState) : Except Err GState :=
  l.foldlM (bucketFixStep nn oW iW) T

/-- The `output` map after the first deletion loop of `update_removed_node`
(`del output_dict[inode][node]` for every in-neighbor `inode`). -/
def outW1F (nn node : Nat) (iW oW : Nat → Nat → Option Int) :
    Nat → Nat → Option Int :=
  fun s t => if t = node ∧ s ∈ inKeys nn iW node then none else oW s t

/-- `out_nodes` as read by the source *after* the first deletion loop (the
Python name binds a live reference; for a self-loop node the entry
`node → node` is already gone at this point). -/
def ok2F (nn node : Nat) (iW oW : Nat → Nat → Option Int) : Finset Nat :=
  inKeys nn (outW1F nn node iW oW) node

/-- The `input` map after the second deletion loop
(`del input_dict[onode][node]` for every out-neighbor `onode`). -/
def inW1F (nn node : Nat) (iW oW : Nat → Nat → Option Int) :
    Nat → Nat → Option Int :=
  fun t s => if s = node ∧ t ∈ ok2F nn node iW oW then none else iW t s

/-- The `input` map after `del input_dict[node]`. -/
def inW2F (nn node : Nat) (iW oW : Nat → Nat → Option Int) :
    Nat → Nat → Option Int :=
  fun t s => if t = node then none else inW1F nn node iW oW t s

/-- The `output` map after `del output_dict[node]`. -/
def outW2F (nn node : Nat) (iW oW : Nat → Nat → Option Int) :
    Nat → Nat → Option Int :=
  fun s t => if s = node then none else outW1F nn node iW oW s t

/-- `update_removed_node`: delete the entries pointing to `node` from the
out-rows of its in-neighbors, then (on the already half-updated `output`
map, as in the source, where `out_nodes` is read after the first deletion
loop) the entries pointing to `node` from the in-rows of its out-neighbors,
delete `node`'s own rows, and refresh the buckets of all affected
neighbors. -/
def updateRemovedNode (nn : Nat) (node : Nat) (S : GState) :
    Except Err GState :=
  bucketFix nn (outW2F nn node S.inW S.outW) (inW2F nn node S.inW S.outW)
    ((List.range nn).filter
      (fun m => m ∈ inKeys nn S.inW node ∪ ok2F nn node S.inW S.outW))
    { S with inW := inW2F nn node S.inW S.outW
             outW := outW2F nn node S.inW S.outW
             remaining := S.remaining.erase node }

/-- One iteration of the main loop (lines 201-224): prefer a sink (appended to
the right list), then a source (appended to the left list), otherwise pop from
the numeric bucket with the largest key, append to the left list and charge
the node's current incoming weight to the feedback total. -/
def step (nn : Nat) (S : GState) : Except Err GState :=
  if (bucketSet S.buckets .sinks).Nonempty then
    (popFrom S.buckets .sinks).bind (fun nB =>
      updateRemovedNode nn nB.1 { S with buckets := nB.2, right := S.right ++ [nB.1] })
  else if (bucketSet S.buckets .sources).Nonempty then
    (popFrom S.buckets .sources).bind (fun nB =>
      updateRemovedNode nn nB.1 { S with buckets := nB.2, left := S.left ++ [nB.1] })
  else
    (maxDeltaKey S.buckets).bind (fun d =>
      (popFrom S.buckets (.delta d)).bind (fun nB =>
        updateRemovedNode nn nB.1
          { S with buckets := nB.2, left := S.left ++ [nB.1],
                   feedback := S.feedback + rowSum S.inW nn nB.1 }))

/-- The main loop, with fuel for the recursion (`compute_order` supplies
enough fuel that `fuelOut` is unreachable). -/
def loop (nn : Nat) : Nat → GState → Except Err GState
  | 0, S =>
    if S.left.length + S.right.length < nn then .error .fuelOut else .ok S
  | f + 1, S =>
    if S.left.length + S.right.length < nn then (step nn S).bind (loop nn f)
    else .ok S

/-- The finalization (lines 226-237): reverse the right list, translate back
to original ids, and check that the recomputed backward weight of the original
edge list equals the tracked feedback total. -/
def finalizeOrder (c : List Edge) (no : List Int) (F : GState) :
    Except Err (List Int × Int) :=
  let res := (F.left ++ F.right.reverse).map (fun k => no.getD k 0)
  if ∀ r ∈ c, r.1 ∈ res ∧ r.2.1 ∈ res then
    let fsw := ((c.filter (fun r =>
      List.indexOf r.2.1 res < List.indexOf r.1 res)).map (fun r => r.2.2)).sum
    if fsw = F.feedback then .ok (res, F.feedback) else .error .assertionError
  else .error .keyError

/-- `compute_order`, returning both the order and the internally tracked
feedback total (the value the code prints and validates but does not
return). -/
def computeOrderState (c : List Edge) (seed : Nat) :
    Except Err (List Int × Int) :=
  let no := nodeOrderOf c seed
  let nn := no.length
  let ce := compactify no c
  let S0 := initGraph nn ce
  (checkE (symCheck nn S0)).bind (fun _ =>
    (resolveAll nn S0).bind (fun S1 =>
      (checkE (apCheck nn S1)).bind (fun _ =>
        (loop nn nn (initBuckets nn S1)).bind (fun F =>
          finalizeOrder c no F))))

/-- `compute_order` as the caller sees it: only the ordered list is
returned. -/
def compute_order (c : List Edge) (random_seed : Nat) :
    Except Err (List Int) :=
  (computeOrderState c random_seed).map Prod.fst

/-- Raw input rows, before the edge-triple shape is known.  `compute_order`
starts by reading `r[2]` of every row (the total-weight sum on line 32), so a
row with fewer than three fields raises `IndexError` before any other work. -/
def computeOrderRaw (rows : List (List Int)) (seed : Nat) :
    Except Err (List Int) :=
  if ∀ r ∈ rows, 3 ≤ r.length then
    compute_order (rows.map (fun r => (r.getD 0 0, r.getD 1 0, r.getD 2 0))) seed
  else .error .indexError

/-- Recover the final state from an `Except`, defaulting to `d` (used only to
phrase theorems about successful runs). -/
def okD (d : GState) : Except Err GState → GState
  | .ok T => T
  | .error _ => d

/-- Whether a computation succeeded. -/
def isOkE {α : Type} : Except Err α → Bool
  | .ok _ => true
  | .error _ => false

/-- The backward weight of the map `w` with respect to an order: the summed
weight of entries `(s, t)` with `t` placed before `s`. -/
def backW (w : Nat → Nat → Option Int) : List Nat → Int
  | [] => 0
  | t :: rest => ((rest.map (fun s => (w s t).getD 0)).sum) + backW w rest

/-- No input edge is a self-loop. -/
def noSelfLoop (c : List Edge) : Prop := ∀ r ∈ c, r.1 ≠ r.2.1

instance (c : List Edge) : Decidable (noSelfLoop c) := by
  unfold noSelfLoop; infer_instance

/-- Non-negative weights (the input-validity condition of the spec). -/
def validWeights (c : List Edge) : Prop := ∀ r ∈ c, 0 ≤ r.2.2

instance (c : List Edge) : Decidable (validWeights c) := by
  unfold validWeights; infer_instance

/-- The sum of the weights of the original edges that point backward (target
placed no later than source) in the final order. -/
def backwardOrig (c : List Edge) (res : List Int) : Int :=
  ((c.filter (fun r =>
    List.indexOf r.2.1 res < List.indexOf r.1 res)).map (fun r => r.2.2)).sum

/-- The value of an entry after the anti-parallel phase, as a function of the
two pre-phase entries of its unordered pair: if both directions were present,
the heavier direction survives with the difference as weight; on a tie the
direction from the smaller to the larger compacted id survives with weight
zero. -/
def resolvedW (W : Nat → Nat → Option Int) (s t : Nat) : Option Int :=
  if s = t then W s t
  else
    match W s t, W t s with
    | some a, some b =>
        if t < s then (if b < a then some (a - b) else none)
        else (if a < b then none else some (a - b))
    | _, _ => W s t

/-- The slot `(s, t)` belongs to one of the listed unordered pairs. -/
def pairMem (P : List (Nat × Nat)) (s t : Nat) : Prop :=
  (s, t) ∈ P ∨ (t, s) ∈ P

instance (P : List (Nat × Nat)) (s t : Nat) : Decidable (pairMem P s t) := by
  unfold pairMem; infer_instance

/-! ### State invariants -/

/-- The two adjacency maps mirror each other exactly. -/
def symW (S : GState) : Prop := ∀ s t, S.outW s t = S.inW t s

/-- Entries only connect nodes that are still present. -/
def entriesWf (S : GState) : Prop :=
  ∀ s t, S.outW s t ≠ none → s ∈ S.remaining ∧ t ∈ S.remaining

/-- The graph has no self-loop entry. -/
def noSelfE (S : GState) : Prop := ∀ m, S.outW m m = none

/-- The bucket index is exactly the keyed image of the present nodes, and the
key index is correct for present nodes. -/
def bucketsWf (nn : Nat) (S : GState) : Prop :=
  S.buckets = S.remaining.image (fun m => (S.nodeKey m, m)) ∧
  ∀ m ∈ S.remaining, S.nodeKey m = bucketKey nn S m

/-- The placed lists and the present node set partition the universe. -/
def placedWf (nn : Nat) (S : GState) : Prop :=
  (S.left ++ S.right).Nodup ∧ S.remaining ⊆ Finset.range nn ∧
  (∀ x ∈ S.left ++ S.right, x ∈ Finset.range nn ∧ x ∉ S.remaining) ∧
  S.left.length + S.right.length + S.remaining.card = nn

/-- The full invariant of the main loop. -/
def Inv (nn : Nat) (S : GState) : Prop :=
  symW S ∧ entriesWf S ∧ bucketsWf nn S ∧ placedWf nn S

/-! ### Basic lemmas about `upd2` and `backW` -/

theorem upd2_same (w : Nat → Nat → Option Int) (a b : Nat) (v : Option Int) :
    upd2 w a b v a b = v := by
  simp [upd2]

theorem upd2_other (w : Nat → Nat → Option Int) (a b : Nat) (v : Option Int)
    {s t : Nat} (h : ¬(s = a ∧ t = b)) : upd2 w a b v s t = w s t := by
  simp [upd2, h]

theorem backW_nil (w : Nat → Nat → Option Int) : backW w [] = 0 := rfl

theorem backW_cons (w : Nat → Nat → Option Int) (t : Nat) (rest : List Nat) :
    backW w (t :: rest) =
      ((rest.map (fun s => (w s t).getD 0)).sum) + backW w rest := rfl

theorem backW_congr {w1 w2 : Nat → Nat → Option Int} :
    ∀ {ord : List Nat}, (∀ s ∈ ord, ∀ t ∈ ord, w1 s t = w2 s t) →
      backW w1 ord = backW w2 ord
  | [], _ => rfl
  | t :: rest, h => by
    rw [backW_cons, backW_cons]
    have h1 : rest.map (fun s => (w1 s t).getD 0) =
        rest.map (fun s => (w2 s t).getD 0) := by
      refine List.map_congr_left (fun s hs => ?_)
      rw [h s (List.mem_cons_of_mem _ hs) t (List.mem_cons_self _ _)]
    rw [h1, backW_congr (fun s hs t' ht' =>
      h s (List.mem_cons_of_mem _ hs) t' (List.mem_cons_of_mem _ ht'))]

theorem backW_append_single (w : Nat → Nat → Option Int) :
    ∀ (l : List Nat) (n : Nat),
      backW w (l ++ [n]) = backW w l + ((l.map (fun t => (w n t).getD 0)).sum)
  | [], n => by simp [backW]
  | t :: rest, n => by
    rw [List.cons_append, backW_cons, backW_append_single w rest n, backW_cons]
    simp only [List.map_append, List.sum_append, List.map_cons, List.map_nil,
      List.sum_cons, List.sum_nil]
    ring

theorem map_sum_update :
    ∀ (l : List Nat) (f g : Nat → Int) (a : Nat), l.Nodup → a ∈ l →
      (∀ x, x ≠ a → f x = g x) →
      (l.map f).sum = (l.map g).sum + (f a - g a)
  | [], _, _, _, _, h, _ => absurd h (List.not_mem_nil _)
  | x :: l', f, g, a, hnd, hmem, hfg => by
    rcases List.nodup_cons.mp hnd with ⟨hx, hnd'⟩
    rcases List.mem_cons.mp hmem with h | h
    · subst h
      have : l'.map f = l'.map g :=
        List.map_congr_left (fun y hy => hfg y (fun hya => hx (hya ▸ hy)))
      simp only [List.map_cons, List.sum_cons, this]
      ring
    · have hxa : x ≠ a := fun he => hx (he ▸ h)
      simp only [List.map_cons, List.sum_cons,
        map_sum_update l' f g a hnd' h hfg, hfg x hxa]
      ring

theorem backW_upd2 (w : Nat → Nat → Option Int) (v : Option Int) :
    ∀ (ord : List Nat) (a b : Nat), ord.Nodup → a ∈ ord → b ∈ ord → a ≠ b →
      backW (upd2 w a b v) ord = backW w ord +
        (if List.indexOf b ord < List.indexOf a ord
         then v.getD 0 - (w a b).getD 0 else 0)
  | [], a, b, _, ha, _, _ => absurd ha (List.not_mem_nil _)
  | t :: rest, a, b, hnd, ha, hb, hab => by
    rcases List.nodup_cons.mp hnd with ⟨ht, hnd'⟩
    by_cases htb : t = b
    · subst htb
      have haR : a ∈ rest := by
        rcases List.mem_cons.mp ha with h | h
        · exact absurd h hab
        · exact h
      rw [backW_cons, backW_cons]
      have hhead : (rest.map (fun s => ((upd2 w a t v) s t).getD 0)).sum =
          (rest.map (fun s => (w s t).getD 0)).sum +
            (v.getD 0 - (w a t).getD 0) := by
        have h1 := map_sum_update rest
          (fun s => ((upd2 w a t v) s t).getD 0)
          (fun s => (w s t).getD 0) a hnd' haR
          (fun x hx => by
            show (upd2 w a t v x t).getD 0 = (w x t).getD 0
            rw [upd2_other _ _ _ _ (fun hc => hx hc.1)])
        rw [h1]
        show _ + ((upd2 w a t v a t).getD 0 - (w a t).getD 0) = _
        rw [upd2_same]
      have htail : backW (upd2 w a t v) rest = backW w rest :=
        backW_congr (fun s _ t' ht' => upd2_other _ _ _ _
          (fun hc => ht (hc.2 ▸ ht')))
      rw [hhead, htail]
      have hia : List.indexOf a (t :: rest) = (List.indexOf a rest).succ :=
        List.indexOf_cons_ne rest (fun he => hab he.symm)
      have hib : List.indexOf t (t :: rest) = 0 := List.indexOf_cons_self t rest
      rw [hib, hia, if_pos (Nat.succ_pos _)]
      ring
    · by_cases hta : t = a
      · subst hta
        have hbR : b ∈ rest := by
          rcases List.mem_cons.mp hb with h | h
          · exact absurd h.symm htb
          · exact h
        rw [backW_cons, backW_cons]
        have hhead : (rest.map (fun s => ((upd2 w t b v) s t).getD 0)).sum =
            (rest.map (fun s => (w s t).getD 0)).sum := by
          refine congrArg _ (List.map_congr_left (fun s _ => ?_))
          show (upd2 w t b v s t).getD 0 = (w s t).getD 0
          rw [upd2_other _ _ _ _ (fun hc => htb hc.2)]
        have htail : backW (upd2 w t b v) rest = backW w rest :=
          backW_congr (fun s hs t' _ => upd2_other _ _ _ _
            (fun hc => ht (hc.1 ▸ hs)))
        rw [hhead, htail]
        have hia : List.indexOf t (t :: rest) = 0 := List.indexOf_cons_self t rest
        have hib : List.indexOf b (t :: rest) = (List.indexOf b rest).succ :=
          List.indexOf_cons_ne rest htb
        rw [hia, hib, if_neg (by omega)]
        ring
      · have haR : a ∈ rest := by
          rcases List.mem_cons.mp ha with h | h
          · exact absurd h.symm hta
          · exact h
        have hbR : b ∈ rest := by
          rcases List.mem_cons.mp hb with h | h
          · exact absurd h.symm htb
          · exact h
        rw [backW_cons, backW_cons]
        have hhead : (rest.map (fun s => ((upd2 w a b v) s t).getD 0)).sum =
            (rest.map (fun s => (w s t).getD 0)).sum := by
          refine congrArg _ (List.map_congr_left (fun s _ => ?_))
          show (upd2 w a b v s t).getD 0 = (w s t).getD 0
          rw [upd2_other _ _ _ _ (fun hc => htb hc.2)]
        rw [hhead, backW_upd2 w v rest a b hnd' haR hbR hab]
        have hia : List.indexOf a (t :: rest) = (List.indexOf a rest).succ :=
          List.indexOf_cons_ne rest hta
        have hib : List.indexOf b (t :: rest) = (List.indexOf b rest).succ :=
          List.indexOf_cons_ne rest htb
        rw [hia, hib]
        by_cases hlt : List.indexOf b rest < List.indexOf a rest
        · rw [if_pos hlt, if_pos (Nat.succ_lt_succ hlt)]; ring
        · rw [if_neg hlt, if_neg (fun hc => hlt (Nat.lt_of_succ_lt_succ hc))]
          ring

/-! ### The node universe and the compaction -/

theorem backW_none : ∀ ord : List Nat, backW (fun _ _ => none) ord = 0
  | [] => rfl
  | t :: rest => by
    rw [backW_cons, backW_none rest]
    have : rest.map (fun _ => ((none : Option Int)).getD 0) =
        rest.map (fun _ => (0 : Int)) := rfl
    simp

theorem universeList_nodup (c : List Edge) : (universeList c).Nodup :=
  List.nodup_dedup _

theorem mem_universeList {a : Int} {c : List Edge} :
    a ∈ universeList c ↔ a ∈ nodes_from_connections_table c := by
  simp only [universeList, List.mem_dedup, List.mem_append, List.mem_map,
    nodes_from_connections_table, Finset.mem_union, List.mem_toFinset]

theorem shuffleModel_perm (seed : Nat) (l : List Int) :
    (shuffleModel seed l).Perm l := by
  unfold shuffleModel
  have h : (l.drop (seed % (l.length + 1)) ++ l.take (seed % (l.length + 1))).Perm
      (l.take (seed % (l.length + 1)) ++ l.drop (seed % (l.length + 1))) :=
    List.perm_append_comm
  rw [List.take_append_drop] at h
  exact h

theorem nodeOrder_nodup (c : List Edge) (seed : Nat) :
    (nodeOrderOf c seed).Nodup :=
  ((shuffleModel_perm seed (universeList c)).nodup_iff).mpr (universeList_nodup c)

theorem mem_nodeOrder {a : Int} {c : List Edge} {seed : Nat} :
    a ∈ nodeOrderOf c seed ↔ a ∈ nodes_from_connections_table c := by
  rw [nodeOrderOf, (shuffleModel_perm seed (universeList c)).mem_iff,
    mem_universeList]

/-- Every edge endpoint receives a compacted id below the node count. -/
theorem endpoint_lt {c : List Edge} {seed : Nat} {r : Edge} (hr : r ∈ c) :
    List.indexOf r.1 (nodeOrderOf c seed) < (nodeOrderOf c seed).length ∧
    List.indexOf r.2.1 (nodeOrderOf c seed) < (nodeOrderOf c seed).length := by
  constructor <;> refine List.indexOf_lt_length.mpr (mem_nodeOrder.mpr ?_) <;>
    simp only [nodes_from_connections_table, Finset.mem_union,
      List.mem_toFinset, List.mem_map]
  · exact Or.inl ⟨r, hr, rfl⟩
  · exact Or.inr ⟨r, hr, rfl⟩

/-! ### The freshly built adjacency maps -/

theorem initInW_eq_initOutW (ce : List CEdge) (t s : Nat) :
    initInW ce t s = initOutW ce s t := by
  simp only [initInW, initOutW, List.filter_filter]
  have : ce.filter (fun r => decide (r.1 = s) && decide (r.2.1 = t)) =
      ce.filter (fun r => decide (r.2.1 = t) && decide (r.1 = s)) :=
    List.filter_congr (fun a _ => Bool.and_comm _ _)
  rw [this]

theorem initGraph_symW (nn : Nat) (ce : List CEdge) : symW (initGraph nn ce) :=
  fun s t => (initInW_eq_initOutW ce t s).symm

theorem initOutW_support {ce : List CEdge} {s t : Nat}
    (h : initOutW ce s t ≠ none) : ∃ r ∈ ce, r.1 = s ∧ r.2.1 = t := by
  simp only [initOutW] at h
  split at h
  · exact absurd rfl h
  · rename_i hne
    obtain ⟨x, hx⟩ := List.exists_mem_of_ne_nil _ hne
    have hx1 := List.mem_filter.mp hx
    have hx2 := List.mem_filter.mp hx1.1
    exact ⟨x, hx2.1, of_decide_eq_true hx2.2, of_decide_eq_true hx1.2⟩

theorem initGraph_entriesWf (nn : Nat) (ce : List CEdge)
    (h : ∀ r ∈ ce, r.1 < nn ∧ r.2.1 < nn) : entriesWf (initGraph nn ce) := by
  intro s t hst
  obtain ⟨r, hr, h1, h2⟩ := initOutW_support hst
  subst h1; subst h2
  simp only [initGraph, Finset.mem_range]
  exact ⟨(h r hr).1, (h r hr).2⟩

theorem initGraph_noSelfE (nn : Nat) (ce : List CEdge)
    (h : ∀ r ∈ ce, r.1 ≠ r.2.1) : noSelfE (initGraph nn ce) := by
  intro m
  by_contra hm
  obtain ⟨r, hr, h1, h2⟩ := initOutW_support hm
  exact h r hr (h1.trans h2.symm)

theorem symW_symCheck {nn : Nat} {S : GState} (h : symW S) : symCheck nn S := by
  constructor
  · intro t _ s _ _; exact h s t
  · intro s _ t _ _; exact (h s t).symm

/-- Peeling one edge off the merged adjacency map. -/
theorem initOutW_cons (e : CEdge) (ce : List CEdge) (s t : Nat) :
    initOutW (e :: ce) s t =
      upd2 (initOutW ce) e.1 e.2.1
        (some (e.2.2 + (initOutW ce e.1 e.2.1).getD 0)) s t := by
  by_cases hs : e.1 = s
  · by_cases ht : e.2.1 = t
    · subst hs; subst ht
      rw [upd2_same]
      simp only [initOutW]
      have h1 : List.filter (fun r => decide (r.1 = e.1)) (e :: ce) =
          e :: List.filter (fun r => decide (r.1 = e.1)) ce :=
        List.filter_cons_of_pos (by simp)
      rw [h1]
      have h2 : List.filter (fun r => decide (r.2.1 = e.2.1))
          (e :: List.filter (fun r => decide (r.1 = e.1)) ce) =
          e :: List.filter (fun r => decide (r.2.1 = e.2.1))
            (List.filter (fun r => decide (r.1 = e.1)) ce) :=
        List.filter_cons_of_pos (by simp)
      rw [h2, if_neg (List.cons_ne_nil _ _)]
      simp only [List.map_cons, List.sum_cons, Option.some_inj]
      split
      · rename_i hemp; rw [hemp]; simp
      · simp
    · rw [upd2_other _ _ _ _ (fun hc => ht hc.2.symm)]
      simp only [initOutW]
      have h1 : List.filter (fun r => decide (r.1 = s)) (e :: ce) =
          e :: List.filter (fun r => decide (r.1 = s)) ce :=
        List.filter_cons_of_pos (by simp [hs])
      rw [h1]
      have h2 : List.filter (fun r => decide (r.2.1 = t))
          (e :: List.filter (fun r => decide (r.1 = s)) ce) =
          List.filter (fun r => decide (r.2.1 = t))
            (List.filter (fun r => decide (r.1 = s)) ce) :=
        List.filter_cons_of_neg (by simp [ht])
      rw [h2]
  · rw [upd2_other _ _ _ _ (fun hc => hs hc.1.symm)]
    simp only [initOutW]
    have h1 : List.filter (fun r => decide (r.1 = s)) (e :: ce) =
        List.filter (fun r => decide (r.1 = s)) ce :=
      List.filter_cons_of_neg (by simp [hs])
    rw [h1]

/-- The backward weight of the merged adjacency map with respect to any
duplicate-free order covering the endpoints equals the summed weight of the
backward edges of the edge list. -/
theorem backW_init (ord : List Nat) (hnd : ord.Nodup) :
    ∀ ce : List CEdge, (∀ r ∈ ce, r.1 ∈ ord ∧ r.2.1 ∈ ord ∧ r.1 ≠ r.2.1) →
      backW (initOutW ce) ord =
        ((ce.filter (fun r =>
          List.indexOf r.2.1 ord < List.indexOf r.1 ord)).map
            (fun r => r.2.2)).sum
  | [], _ => by
    have h0 : backW (initOutW []) ord = backW (fun _ _ => none) ord :=
      backW_congr (fun s _ t _ => by simp [initOutW])
    rw [h0, backW_none]
    simp
  | e :: ce, h => by
    have he := h e (List.mem_cons_self _ _)
    have hstep : backW (initOutW (e :: ce)) ord =
        backW (upd2 (initOutW ce) e.1 e.2.1
          (some (e.2.2 + (initOutW ce e.1 e.2.1).getD 0))) ord :=
      backW_congr (fun s _ t _ => initOutW_cons e ce s t)
    rw [hstep, backW_upd2 _ _ ord e.1 e.2.1 hnd he.1 he.2.1 he.2.2,
      backW_init ord hnd ce (fun r hr => h r (List.mem_cons_of_mem _ hr))]
    rw [List.filter_cons]
    by_cases hb : List.indexOf e.2.1 ord < List.indexOf e.1 ord
    · rw [if_pos hb, if_pos (by simpa using hb)]
      simp only [Option.getD_some, List.map_cons, List.sum_cons]
      ring
    · rw [if_neg hb, if_neg (by simpa using hb)]
      ring

/-! ### Anti-parallel resolution -/

theorem resolvedW_congr {W1 W2 : Nat → Nat → Option Int} {s t : Nat}
    (h1 : W1 s t = W2 s t) (h2 : W1 t s = W2 t s) :
    resolvedW W1 s t = resolvedW W2 s t := by
  unfold resolvedW
  rw [h1, h2]

theorem resolvedW_support {W : Nat → Nat → Option Int} {s t : Nat}
    (h : resolvedW W s t ≠ none) : W s t ≠ none := by
  unfold resolvedW at h
  split at h
  · exact h
  · rcases h1 : W s t with _ | a
    · rcases h2 : W t s with _ | b
      · rw [h1, h2] at h; exact absurd h1 (by simpa using h)
      · rw [h1, h2] at h; exact absurd h1 (by simpa using h)
    · simp [h1]

/-- Membership conditions extracted from the `anti_parallel_edges` list. -/
theorem antiPairs_sound {nn : Nat} {S : GState} {p : Nat × Nat}
    (h : p ∈ antiPairs nn S) :
    p.2 < p.1 ∧ p.1 < nn ∧ p.2 < nn ∧
      S.inW p.2 p.1 ≠ none ∧ S.inW p.1 p.2 ≠ none := by
  simp only [antiPairs, List.mem_flatMap, List.mem_map, List.mem_filter,
    List.mem_range, Bool.and_eq_true, decide_eq_true_eq] at h
  obtain ⟨nd, hnd, ind, ⟨hind, ⟨hin1, hlt⟩, hin2⟩, hp⟩ := h
  subst hp
  exact ⟨hlt, hind, hnd, hin1, hin2⟩

/-- Completeness: every anti-parallel pair is listed. -/
theorem antiPairs_complete {nn : Nat} {S : GState} {s t : Nat}
    (hts : t < s) (hs : s < nn) (ht : t < nn)
    (h1 : S.inW t s ≠ none) (h2 : S.inW s t ≠ none) :
    (s, t) ∈ antiPairs nn S := by
  simp only [antiPairs, List.mem_flatMap, List.mem_map, List.mem_filter,
    List.mem_range, Bool.and_eq_true, decide_eq_true_eq]
  exact ⟨t, ht, s, ⟨hs, ⟨h1, hts⟩, h2⟩, rfl⟩

theorem antiPairs_nodup (nn : Nat) (S : GState) : (antiPairs nn S).Nodup := by
  rw [antiPairs, List.nodup_flatMap]
  constructor
  · intro nd _
    refine List.Nodup.map (fun a b hab => ?_) (List.Nodup.filter _ (List.nodup_range nn))
    exact (Prod.mk.injEq _ _ _ _).mp hab |>.1
  · refine List.Pairwise.imp ?_ (List.pairwise_lt_range nn)
    intro a b hab x hxa hxb
    simp only [Function.onFun, List.mem_map, List.mem_filter] at hxa hxb
    obtain ⟨i1, _, he1⟩ := hxa
    obtain ⟨i2, _, he2⟩ := hxb
    rw [← he1] at he2
    have : b = a := ((Prod.mk.injEq _ _ _ _).mp he2).2
    omega

/-- Reading an entry untouched by the two updates of one resolved pair. -/
theorem pairUpd_other {W : Nat → Nat → Option Int} {x y s t : Nat}
    {v : Option Int} (h1 : ¬(s = x ∧ t = y)) (h2 : ¬(s = y ∧ t = x)) :
    upd2 (upd2 W y x none) x y v s t = W s t := by
  rw [upd2_other _ _ _ _ h1, upd2_other _ _ _ _ h2]

theorem symW_pairUpd (S : GState) (x y : Nat) (v : Option Int)
    (hsym : symW S) (hxy : x ≠ y) :
    symW { S with outW := upd2 (upd2 S.outW y x none) x y v,
                  inW := upd2 (upd2 S.inW x y none) y x v } := by
  intro s t
  show upd2 (upd2 S.outW y x none) x y v s t =
    upd2 (upd2 S.inW x y none) y x v t s
  by_cases h1 : s = x ∧ t = y
  · obtain ⟨hs, ht⟩ := h1; subst hs; subst ht
    rw [upd2_same, upd2_same]
  · rw [upd2_other _ _ _ _ h1]
    by_cases h2 : s = y ∧ t = x
    · obtain ⟨hs, ht⟩ := h2
      have hL : upd2 S.outW y x none s t = none := by
        rw [hs, ht]; exact upd2_same _ _ _ _
      have hR : upd2 (upd2 S.inW x y none) y x v t s = none := by
        rw [upd2_other _ _ _ _ (fun hc => hxy (ht.symm.trans hc.1))]
        rw [ht, hs]; exact upd2_same _ _ _ _
      rw [hL, hR]
    · rw [upd2_other _ _ _ _ h2,
        upd2_other _ _ _ _ (fun hc => h1 ⟨hc.2, hc.1⟩),
        upd2_other _ _ _ _ (fun hc => h2 ⟨hc.2, hc.1⟩)]
      exact hsym s t

/-- Reduction of `resolvePair` when the first direction is heavier. -/
theorem resolvePair_gt {S : GState} {p : Nat × Nat} {a b : Int}
    (hsym : symW S) (h12 : S.outW p.1 p.2 = some a)
    (h21 : S.outW p.2 p.1 = some b) (hab : b < a) :
    resolvePair S p = .ok { S with
      outW := upd2 (upd2 S.outW p.2 p.1 none) p.1 p.2 (some (a - b))
      inW := upd2 (upd2 S.inW p.1 p.2 none) p.2 p.1 (some (a - b))
      feedback := S.feedback + b } := by
  have hi1 : S.inW p.2 p.1 = some a := (hsym p.1 p.2).symm.trans h12
  have hi2 : S.inW p.1 p.2 = some b := (hsym p.2 p.1).symm.trans h21
  rw [resolvePair, h12]
  simp only [hi1, hi2, h21, ne_eq, not_true_eq_false, if_false,
    reduceCtorEq, if_neg]
  rw [if_pos hab]

/-- Reduction of `resolvePair` when the first direction is not heavier. -/
theorem resolvePair_le {S : GState} {p : Nat × Nat} {a b : Int}
    (hsym : symW S) (h12 : S.outW p.1 p.2 = some a)
    (h21 : S.outW p.2 p.1 = some b) (hab : a ≤ b) :
    resolvePair S p = .ok { S with
      outW := upd2 (upd2 S.outW p.1 p.2 none) p.2 p.1 (some (b - a))
      inW := upd2 (upd2 S.inW p.2 p.1 none) p.1 p.2 (some (b - a))
      feedback := S.feedback + a } := by
  have hi1 : S.inW p.2 p.1 = some a := (hsym p.1 p.2).symm.trans h12
  have hi2 : S.inW p.1 p.2 = some b := (hsym p.2 p.1).symm.trans h21
  rw [resolvePair, h12]
  simp only [hi1, hi2, h21, ne_eq, not_true_eq_false, if_false,
    reduceCtorEq, if_neg]
  rw [if_neg (by exact fun hc => absurd hab (not_le.mpr hc))]

theorem slots_disjoint {p q : Nat × Nat} (hq : q.2 < q.1) (hp : p.2 < p.1)
    (hne : q ≠ p) :
    ¬(q.1 = p.1 ∧ q.2 = p.2) ∧ ¬(q.1 = p.2 ∧ q.2 = p.1) ∧
    ¬(q.2 = p.1 ∧ q.1 = p.2) ∧ ¬(q.2 = p.2 ∧ q.1 = p.1) := by
  refine ⟨fun hc => hne ?_, fun hc => by omega, fun hc => by omega,
    fun hc => hne ?_⟩
  · have : (q.1, q.2) = (p.1, p.2) := by rw [hc.1, hc.2]
    exact this
  · have : (q.1, q.2) = (p.1, p.2) := by rw [hc.2, hc.1]
    exact this

/-- The two entries of the resolved pair after its update. -/
theorem pairUpd_at {W : Nat → Nat → Option Int} {x y : Nat} {v : Option Int}
    (hxy : x ≠ y) :
    upd2 (upd2 W y x none) x y v x y = v ∧
    upd2 (upd2 W y x none) x y v y x = none := by
  refine ⟨upd2_same _ _ _ _, ?_⟩
  rw [upd2_other _ _ _ _ (fun hc => hxy hc.2)]
  exact upd2_same _ _ _ _

/-- Entries away from both slots of the pair are untouched, for either
orientation of the update. -/
theorem pairUpd_nonslot {W : Nat → Nat → Option Int} {x y s t : Nat}
    {v : Option Int} {p : Nat × Nat}
    (ho : (x, y) = p ∨ (x, y) = (p.2, p.1))
    (h1 : ¬(s = p.1 ∧ t = p.2)) (h2 : ¬(s = p.2 ∧ t = p.1)) :
    upd2 (upd2 W y x none) x y v s t = W s t := by
  rcases ho with ho | ho
  · have hx : x = p.1 := by rw [← ho]
    have hy : y = p.2 := by rw [← ho]
    subst hx; subst hy
    exact pairUpd_other h1 h2
  · have hx : x = p.2 := by
      have := congrArg Prod.fst ho; exact this
    have hy : y = p.1 := by
      have := congrArg Prod.snd ho; exact this
    subst hx; subst hy
    exact pairUpd_other h2 h1

/-- The backward-weight bookkeeping of one resolved pair: removing the lighter
direction and lightening the heavier one decreases the backward weight by the
lighter weight, whichever direction is the backward one. -/
theorem backW_pairUpd {W : Nat → Nat → Option Int} {x y : Nat} {a b : Int}
    (ord : List Nat) (hnd : ord.Nodup) (hx : x ∈ ord) (hy : y ∈ ord)
    (hxy : x ≠ y) (hWxy : W x y = some a) (hWyx : W y x = some b) :
    backW (upd2 (upd2 W y x none) x y (some (a - b))) ord =
      backW W ord - b := by
  rw [backW_upd2 _ _ ord x y hnd hx hy hxy,
    backW_upd2 _ _ ord y x hnd hy hx hxy.symm]
  have hread : ((upd2 W y x none) x y).getD 0 = a := by
    rw [upd2_other _ _ _ _ (fun hc => hxy hc.1), hWxy]; rfl
  rw [hread, hWyx]
  rcases Nat.lt_trichotomy (List.indexOf x ord) (List.indexOf y ord)
    with h | h | h
  · rw [if_pos h, if_neg (by omega)]
    simp only [Option.getD_none, Option.getD_some]
    ring
  · exact absurd ((List.indexOf_inj hx hy).mp h) hxy
  · rw [if_neg (by omega), if_pos h]
    simp only [Option.getD_none, Option.getD_some]
    ring

theorem resolvedW_slot_gt {W : Nat → Nat → Option Int} {p : Nat × Nat}
    {a b : Int} (hp : p.2 < p.1) (h12 : W p.1 p.2 = some a)
    (h21 : W p.2 p.1 = some b) (hab : b < a) :
    resolvedW W p.1 p.2 = some (a - b) ∧ resolvedW W p.2 p.1 = none := by
  have hne : ¬ p.1 = p.2 := by omega
  have hne' : ¬ p.2 = p.1 := by omega
  have hnlt : ¬ p.1 < p.2 := by omega
  constructor
  · simp only [resolvedW, h12, h21, if_neg hne, if_pos hp, if_pos hab]
  · simp only [resolvedW, h12, h21, if_neg hne', if_neg hnlt, if_pos hab]

theorem resolvedW_slot_le {W : Nat → Nat → Option Int} {p : Nat × Nat}
    {a b : Int} (hp : p.2 < p.1) (h12 : W p.1 p.2 = some a)
    (h21 : W p.2 p.1 = some b) (hab : a ≤ b) :
    resolvedW W p.1 p.2 = none ∧ resolvedW W p.2 p.1 = some (b - a) := by
  have hne : ¬ p.1 = p.2 := by omega
  have hne' : ¬ p.2 = p.1 := by omega
  have hnlt : ¬ p.1 < p.2 := by omega
  have hnab : ¬ b < a := not_lt.mpr hab
  constructor
  · simp only [resolvedW, h12, h21, if_neg hne, if_pos hp, if_neg hnab]
  · simp only [resolvedW, h12, h21, if_neg hne', if_neg hnlt, if_neg hnab]

/-- Full characterization of the anti-parallel removal fold: it succeeds, the
final maps are `resolvedW` on the listed pairs and untouched elsewhere, the
feedback total grows by the lighter weight of every pair, everything else is
unchanged, and the feedback-plus-backward-weight bookkeeping is invariant for
every order covering the pairs. -/
theorem resolveFold_spec :
    ∀ (P : List (Nat × Nat)) (S : GState), P.Nodup →
      (∀ p ∈ P, p.2 < p.1 ∧ S.outW p.1 p.2 ≠ none ∧ S.outW p.2 p.1 ≠ none) →
      symW S →
      ∃ T, P.foldlM resolvePair S = .ok T ∧ symW T ∧
        (∀ s t, T.outW s t =
          if pairMem P s t then resolvedW S.outW s t else S.outW s t) ∧
        T.feedback = S.feedback + (P.map (fun p =>
          min ((S.outW p.1 p.2).getD 0) ((S.outW p.2 p.1).getD 0))).sum ∧
        T.remaining = S.remaining ∧ T.buckets = S.buckets ∧
        T.nodeKey = S.nodeKey ∧ T.left = S.left ∧ T.right = S.right ∧
        (∀ ord : List Nat, ord.Nodup →
          (∀ p ∈ P, p.1 ∈ ord ∧ p.2 ∈ ord) →
          T.feedback + backW T.outW ord = S.feedback + backW S.outW ord)
  | [], S, _, _, hsym => by
    refine ⟨S, rfl, hsym, ?_, by simp, rfl, rfl, rfl, rfl, rfl, ?_⟩
    · intro s t
      rw [if_neg (by simp [pairMem])]
    · intro ord _ _; rfl
  | p :: P', S, hnd, hP, hsym => by
    obtain ⟨hpP', hnd'⟩ := List.nodup_cons.mp hnd
    have hp := hP p (List.mem_cons_self _ _)
    obtain ⟨a, h12⟩ := Option.ne_none_iff_exists'.mp hp.2.1
    obtain ⟨b, h21⟩ := Option.ne_none_iff_exists'.mp hp.2.2
    have hne : p.1 ≠ p.2 := by omega
    by_cases hab : b < a
    case pos =>
      have hres := resolvePair_gt hsym h12 h21 hab
      set S' : GState := { S with
        outW := upd2 (upd2 S.outW p.2 p.1 none) p.1 p.2 (some (a - b))
        inW := upd2 (upd2 S.inW p.1 p.2 none) p.2 p.1 (some (a - b))
        feedback := S.feedback + b } with hS'
      have hsym' : symW S' := symW_pairUpd S p.1 p.2 (some (a - b)) hsym hne
      have hor : (p.1, p.2) = p ∨ (p.1, p.2) = (p.2, p.1) := Or.inl rfl
      have hslots : ∀ q ∈ P', S'.outW q.1 q.2 = S.outW q.1 q.2 ∧
          S'.outW q.2 q.1 = S.outW q.2 q.1 := by
        intro q hq
        have hqo := (hP q (List.mem_cons_of_mem _ hq)).1
        have hqp : q ≠ p := fun he => hpP' (he ▸ hq)
        obtain ⟨c1, c2, c3, c4⟩ := slots_disjoint hqo hp.1 hqp
        exact ⟨pairUpd_nonslot hor c1 c2, pairUpd_nonslot hor c3 c4⟩
      have hP'' : ∀ q ∈ P', q.2 < q.1 ∧ S'.outW q.1 q.2 ≠ none ∧
          S'.outW q.2 q.1 ≠ none := by
        intro q hq
        obtain ⟨e1, e2⟩ := hslots q hq
        have h := hP q (List.mem_cons_of_mem _ hq)
        exact ⟨h.1, by rw [e1]; exact h.2.1, by rw [e2]; exact h.2.2⟩
      obtain ⟨T, hfold, hsymT, hchar, hfb, hrem, hbuck, hkey, hleft, hright,
        hbw⟩ := resolveFold_spec P' S' hnd' hP'' hsym'
      have hat := pairUpd_at (W := S.outW) (v := some (a - b)) hne
      have hnp1 : ¬pairMem P' p.1 p.2 := by
        rintro (h | h)
        · exact hpP' (by simpa using h)
        · exact absurd (hP _ (List.mem_cons_of_mem _ h)).1 (by simp; omega)
      have hnp2 : ¬pairMem P' p.2 p.1 := by
        rintro (h | h)
        · exact absurd (hP _ (List.mem_cons_of_mem _ h)).1 (by simp; omega)
        · exact hpP' (by simpa using h)
      refine ⟨T, ?_, hsymT, ?_, ?_, hrem, hbuck, hkey, hleft, hright, ?_⟩
      · rw [List.foldlM_cons, hres]
        exact hfold
      · intro s t
        rw [hchar s t]
        by_cases hP's : pairMem P' s t
        · rw [if_pos hP's, if_pos (by
            rcases hP's with h | h
            · exact Or.inl (List.mem_cons_of_mem _ h)
            · exact Or.inr (List.mem_cons_of_mem _ h))]
          rcases hP's with h | h
          · have hqo := (hP _ (List.mem_cons_of_mem _ h)).1
            have hqp : (s, t) ≠ p := fun he => hpP' (he ▸ h)
            obtain ⟨c1, c2, c3, c4⟩ := slots_disjoint hqo hp.1 hqp
            exact resolvedW_congr (pairUpd_nonslot hor c1 c2)
              (pairUpd_nonslot hor c3 c4)
          · have hqo := (hP _ (List.mem_cons_of_mem _ h)).1
            have hqp : (t, s) ≠ p := fun he => hpP' (he ▸ h)
            obtain ⟨c1, c2, c3, c4⟩ := slots_disjoint hqo hp.1 hqp
            exact resolvedW_congr (pairUpd_nonslot hor c3 c4)
              (pairUpd_nonslot hor c1 c2)
        · by_cases hp1 : s = p.1 ∧ t = p.2
          · obtain ⟨hs, ht⟩ := hp1; subst hs; subst ht
            rw [if_neg hnp1, if_pos (show pairMem (p :: P') p.1 p.2 from
              Or.inl (List.mem_cons_self _ _))]
            show S'.outW p.1 p.2 = _
            rw [show S'.outW p.1 p.2 = some (a - b) from hat.1,
              (resolvedW_slot_gt hp.1 h12 h21 hab).1]
          · by_cases hp2 : s = p.2 ∧ t = p.1
            · obtain ⟨hs, ht⟩ := hp2; subst hs; subst ht
              rw [if_neg hnp2, if_pos (show pairMem (p :: P') p.2 p.1 from
                Or.inr (List.mem_cons_self _ _))]
              show S'.outW p.2 p.1 = _
              rw [show S'.outW p.2 p.1 = none from hat.2,
                (resolvedW_slot_gt hp.1 h12 h21 hab).2]
            · rw [if_neg hP's, if_neg (by
                rintro (h | h)
                · rcases List.mem_cons.mp h with h' | h'
                  · exact hp1 (by
                      have h1 := congrArg Prod.fst h'
                      have h2 := congrArg Prod.snd h'
                      exact ⟨h1, h2⟩)
                  · exact hP's (Or.inl h')
                · rcases List.mem_cons.mp h with h' | h'
                  · exact hp2 (by
                      have h1 := congrArg Prod.fst h'
                      have h2 := congrArg Prod.snd h'
                      exact ⟨h2, h1⟩)
                  · exact hP's (Or.inr h'))]
              exact pairUpd_nonslot hor hp1 hp2
      · rw [hfb]
        have hcong : P'.map (fun q =>
            min ((S'.outW q.1 q.2).getD 0) ((S'.outW q.2 q.1).getD 0)) =
            P'.map (fun q =>
            min ((S.outW q.1 q.2).getD 0) ((S.outW q.2 q.1).getD 0)) := by
          refine List.map_congr_left (fun q hq => ?_)
          obtain ⟨e1, e2⟩ := hslots q hq
          rw [e1, e2]
        rw [hcong]
        show S.feedback + b + _ = _
        rw [List.map_cons, List.sum_cons, h12, h21]
        simp only [Option.getD_some]
        rw [min_eq_right (le_of_lt hab)]
        ring
      · intro ord hnord hcov
        have hcov' : ∀ q ∈ P', q.1 ∈ ord ∧ q.2 ∈ ord :=
          fun q hq => hcov q (List.mem_cons_of_mem _ hq)
        rw [hbw ord hnord hcov']
        show S.feedback + b + backW S'.outW ord = _
        have hpord := hcov p (List.mem_cons_self _ _)
        have : backW S'.outW ord = backW S.outW ord - b :=
          backW_pairUpd ord hnord hpord.1 hpord.2 hne h12 h21
        rw [this]
        ring
    case neg =>
      have hab' : a ≤ b := not_lt.mp hab
      have hres := resolvePair_le hsym h12 h21 hab'
      set S' : GState := { S with
        outW := upd2 (upd2 S.outW p.1 p.2 none) p.2 p.1 (some (b - a))
        inW := upd2 (upd2 S.inW p.2 p.1 none) p.1 p.2 (some (b - a))
        feedback := S.feedback + a } with hS'
      have hsym' : symW S' := symW_pairUpd S p.2 p.1 (some (b - a)) hsym hne.symm
      have hor : (p.2, p.1) = p ∨ (p.2, p.1) = (p.2, p.1) := Or.inr rfl
      have hslots : ∀ q ∈ P', S'.outW q.1 q.2 = S.outW q.1 q.2 ∧
          S'.outW q.2 q.1 = S.outW q.2 q.1 := by
        intro q hq
        have hqo := (hP q (List.mem_cons_of_mem _ hq)).1
        have hqp : q ≠ p := fun he => hpP' (he ▸ hq)
        obtain ⟨c1, c2, c3, c4⟩ := slots_disjoint hqo hp.1 hqp
        exact ⟨pairUpd_nonslot hor c1 c2, pairUpd_nonslot hor c3 c4⟩
      have hP'' : ∀ q ∈ P', q.2 < q.1 ∧ S'.outW q.1 q.2 ≠ none ∧
          S'.outW q.2 q.1 ≠ none := by
        intro q hq
        obtain ⟨e1, e2⟩ := hslots q hq
        have h := hP q (List.mem_cons_of_mem _ hq)
        exact ⟨h.1, by rw [e1]; exact h.2.1, by rw [e2]; exact h.2.2⟩
      obtain ⟨T, hfold, hsymT, hchar, hfb, hrem, hbuck, hkey, hleft, hright,
        hbw⟩ := resolveFold_spec P' S' hnd' hP'' hsym'
      have hat := pairUpd_at (W := S.outW) (v := some (b - a)) hne.symm
      have hnp1 : ¬pairMem P' p.1 p.2 := by
        rintro (h | h)
        · exact hpP' (by simpa using h)
        · exact absurd (hP _ (List.mem_cons_of_mem _ h)).1 (by simp; omega)
      have hnp2 : ¬pairMem P' p.2 p.1 := by
        rintro (h | h)
        · exact absurd (hP _ (List.mem_cons_of_mem _ h)).1 (by simp; omega)
        · exact hpP' (by simpa using h)
      refine ⟨T, ?_, hsymT, ?_, ?_, hrem, hbuck, hkey, hleft, hright, ?_⟩
      · rw [List.foldlM_cons, hres]
        exact hfold
      · intro s t
        rw [hchar s t]
        by_cases hP's : pairMem P' s t
        · rw [if_pos hP's, if_pos (by
            rcases hP's with h | h
            · exact Or.inl (List.mem_cons_of_mem _ h)
            · exact Or.inr (List.mem_cons_of_mem _ h))]
          rcases hP's with h | h
          · have hqo := (hP _ (List.mem_cons_of_mem _ h)).1
            have hqp : (s, t) ≠ p := fun he => hpP' (he ▸ h)
            obtain ⟨c1, c2, c3, c4⟩ := slots_disjoint hqo hp.1 hqp
            exact resolvedW_congr (pairUpd_nonslot hor c1 c2)
              (pairUpd_nonslot hor c3 c4)
          · have hqo := (hP _ (List.mem_cons_of_mem _ h)).1
            have hqp : (t, s) ≠ p := fun he => hpP' (he ▸ h)
            obtain ⟨c1, c2, c3, c4⟩ := slots_disjoint hqo hp.1 hqp
            exact resolvedW_congr (pairUpd_nonslot hor c3 c4)
              (pairUpd_nonslot hor c1 c2)
        · by_cases hp1 : s = p.1 ∧ t = p.2
          · obtain ⟨hs, ht⟩ := hp1; subst hs; subst ht
            rw [if_neg hnp1, if_pos (show pairMem (p :: P') p.1 p.2 from
              Or.inl (List.mem_cons_self _ _))]
            show S'.outW p.1 p.2 = _
            rw [show S'.outW p.1 p.2 = none from hat.2,
              (resolvedW_slot_le hp.1 h12 h21 hab').1]
          · by_cases hp2 : s = p.2 ∧ t = p.1
            · obtain ⟨hs, ht⟩ := hp2; subst hs; subst ht
              rw [if_neg hnp2, if_pos (show pairMem (p :: P') p.2 p.1 from
                Or.inr (List.mem_cons_self _ _))]
              show S'.outW p.2 p.1 = _
              rw [show S'.outW p.2 p.1 = some (b - a) from hat.1,
                (resolvedW_slot_le hp.1 h12 h21 hab').2]
            · rw [if_neg hP's, if_neg (by
                rintro (h | h)
                · rcases List.mem_cons.mp h with h' | h'
                  · exact hp1 (by
                      have h1 := congrArg Prod.fst h'
                      have h2 := congrArg Prod.snd h'
                      exact ⟨h1, h2⟩)
                  · exact hP's (Or.inl h')
                · rcases List.mem_cons.mp h with h' | h'
                  · exact hp2 (by
                      have h1 := congrArg Prod.fst h'
                      have h2 := congrArg Prod.snd h'
                      exact ⟨h2, h1⟩)
                  · exact hP's (Or.inr h'))]
              exact pairUpd_nonslot hor hp1 hp2
      · rw [hfb]
        have hcong : P'.map (fun q =>
            min ((S'.outW q.1 q.2).getD 0) ((S'.outW q.2 q.1).getD 0)) =
            P'.map (fun q =>
            min ((S.outW q.1 q.2).getD 0) ((S.outW q.2 q.1).getD 0)) := by
          refine List.map_congr_left (fun q hq => ?_)
          obtain ⟨e1, e2⟩ := hslots q hq
          rw [e1, e2]
        rw [hcong]
        show S.feedback + a + _ = _
        rw [List.map_cons, List.sum_cons, h12, h21]
        simp only [Option.getD_some]
        rw [min_eq_left hab']
        ring
      · intro ord hnord hcov
        have hcov' : ∀ q ∈ P', q.1 ∈ ord ∧ q.2 ∈ ord :=
          fun q hq => hcov q (List.mem_cons_of_mem _ hq)
        rw [hbw ord hnord hcov']
        show S.feedback + a + backW S'.outW ord = _
        have hpord := hcov p (List.mem_cons_self _ _)
        have : backW S'.outW ord = backW S.outW ord - a :=
          backW_pairUpd ord hnord hpord.2 hpord.1 hne.symm h21 h12
        rw [this]
        ring

theorem pairMem_antiPairs_self {nn : Nat} {S : GState} (m : Nat) :
    ¬ pairMem (antiPairs nn S) m m := by
  rintro (h | h) <;> exact absurd (antiPairs_sound h).1 (by omega)

/-- The anti-parallel phase on the checked graph: success and all the facts
the rest of the pipeline needs. -/
theorem resolveAll_spec (nn : Nat) (S : GState) (hsym : symW S) :
    ∃ T, resolveAll nn S = .ok T ∧ symW T ∧
      (∀ s t, T.outW s t = if pairMem (antiPairs nn S) s t
        then resolvedW S.outW s t else S.outW s t) ∧
      T.remaining = S.remaining ∧ T.buckets = S.buckets ∧
      T.nodeKey = S.nodeKey ∧ T.left = S.left ∧ T.right = S.right ∧
      (∀ s t, T.outW s t ≠ none → S.outW s t ≠ none) ∧
      (∀ ord : List Nat, ord.Nodup → (∀ s, s < nn → s ∈ ord) →
        T.feedback + backW T.outW ord = S.feedback + backW S.outW ord) := by
  have hP : ∀ p ∈ antiPairs nn S,
      p.2 < p.1 ∧ S.outW p.1 p.2 ≠ none ∧ S.outW p.2 p.1 ≠ none := by
    intro p hp
    have h := antiPairs_sound hp
    refine ⟨h.1, ?_, ?_⟩
    · rw [hsym p.1 p.2]; exact h.2.2.2.1
    · rw [hsym p.2 p.1]; exact h.2.2.2.2
  obtain ⟨T, hfold, hsymT, hchar, _, hrem, hbuck, hkey, hleft, hright, hbw⟩ :=
    resolveFold_spec (antiPairs nn S) S (antiPairs_nodup nn S) hP hsym
  refine ⟨T, hfold, hsymT, hchar, hrem, hbuck, hkey, hleft, hright, ?_, ?_⟩
  · intro s t h
    rw [hchar s t] at h
    split at h
    · exact resolvedW_support h
    · exact h
  · intro ord hnd hcov
    refine hbw ord hnd (fun p hp => ?_)
    have h := antiPairs_sound hp
    exact ⟨hcov _ h.2.1, hcov _ h.2.2.1⟩

/-- After resolution, no pair of nodes has entries in both directions (and no
self-loop entry survives, given there was none to begin with). -/
theorem resolve_nap {nn : Nat} {S T : GState} (hsym : symW S)
    (hnoselfS : noSelfE S)
    (hchar : ∀ s t, T.outW s t = if pairMem (antiPairs nn S) s t
      then resolvedW S.outW s t else S.outW s t) :
    ∀ s t, s < nn → t < nn → T.outW s t ≠ none → T.outW t s = none := by
  have hsup : ∀ s t, T.outW s t ≠ none → S.outW s t ≠ none := by
    intro s t h
    rw [hchar s t] at h
    split at h
    · exact resolvedW_support h
    · exact h
  intro s t hs ht hne
  by_cases hst : s = t
  · subst hst
    rw [hchar s s, if_neg (pairMem_antiPairs_self s)] at hne
    exact absurd (hnoselfS s) hne
  by_cases hts : S.outW t s = none
  · have hnm : ¬ pairMem (antiPairs nn S) t s := by
      rintro (h | h)
      · exact (antiPairs_sound h).2.2.2.1 ((hsym t s).symm.trans hts)
      · exact (antiPairs_sound h).2.2.2.2 ((hsym t s).symm.trans hts)
    rw [hchar t s, if_neg hnm]
    exact hts
  · obtain ⟨a, ha⟩ := Option.ne_none_iff_exists'.mp (hsup s t hne)
    obtain ⟨b, hb⟩ := Option.ne_none_iff_exists'.mp hts
    rcases lt_or_gt_of_ne hst with hlt | hgt
    · -- s < t: the pair is (t, s)
      have hmem : (t, s) ∈ antiPairs nn S := by
        refine antiPairs_complete hlt ht hs ?_ ?_
        · rw [← hsym t s]; exact hts
        · rw [← hsym s t]; exact hsup s t hne
      have hpm : pairMem (antiPairs nn S) s t := Or.inr hmem
      have hpm' : pairMem (antiPairs nn S) t s := Or.inl hmem
      rw [hchar s t, if_pos hpm] at hne
      rw [hchar t s, if_pos hpm']
      by_cases hab : a < b
      · exact absurd (resolvedW_slot_gt (p := (t, s)) hlt hb ha hab).2 hne
      · exact (resolvedW_slot_le (p := (t, s)) hlt hb ha (not_lt.mp hab)).1
    · -- t < s: the pair is (s, t)
      have hmem : (s, t) ∈ antiPairs nn S := by
        refine antiPairs_complete hgt hs ht ?_ ?_
        · rw [← hsym s t]; exact hsup s t hne
        · rw [← hsym t s]; exact hts
      have hpm : pairMem (antiPairs nn S) s t := Or.inl hmem
      have hpm' : pairMem (antiPairs nn S) t s := Or.inr hmem
      rw [hchar s t, if_pos hpm] at hne
      rw [hchar t s, if_pos hpm']
      by_cases hab : b < a
      · exact (resolvedW_slot_gt (p := (s, t)) hgt ha hb hab).2
      · exact absurd (resolvedW_slot_le (p := (s, t)) hgt ha hb
          (not_lt.mp hab)).1 hne

/-! ### Buckets -/

theorem keyedPair_injective (K : Nat → BKey) :
    Function.Injective (fun m => (K m, m)) := by
  intro x y hxy
  exact congrArg Prod.snd hxy

theorem bucketSet_image (R : Finset Nat) (K : Nat → BKey) (k : BKey) :
    bucketSet (R.image (fun m => (K m, m))) k =
      R.filter (fun m => K m = k) := by
  ext x
  simp only [bucketSet, Finset.mem_image, Finset.mem_filter]
  constructor
  · rintro ⟨p, ⟨⟨m, hm, hp⟩, hk⟩, hx⟩
    rw [← hp] at hk hx
    simp only at hk hx
    subst hx
    exact ⟨hm, hk⟩
  · rintro ⟨hx, hk⟩
    exact ⟨(k, x), ⟨⟨x, hx, by rw [hk]⟩, rfl⟩, rfl⟩

theorem popFrom_spec (B : Finset (BKey × Nat)) (k : BKey)
    (h : (bucketSet B k).Nonempty) :
    popFrom B k = .ok ((bucketSet B k).min' h,
      B.erase (k, (bucketSet B k).min' h)) := by
  rw [popFrom, dif_pos h]

theorem removeFrom_mem {B : Finset (BKey × Nat)} {k : BKey} {n : Nat}
    (h : (k, n) ∈ B) : removeFrom B k n = .ok (B.erase (k, n)) := by
  rw [removeFrom, if_pos h]

/-- The key recomputation only reads the two rows of the node. -/
theorem bucketKeyW_congr {nn : Nat} {oW1 iW1 oW2 iW2 : Nat → Nat → Option Int}
    {m : Nat} (ho : ∀ t, oW1 m t = oW2 m t) (hi : ∀ t, iW1 m t = iW2 m t) :
    bucketKeyW nn oW1 iW1 m = bucketKeyW nn oW2 iW2 m := by
  unfold bucketKeyW rowSum
  have h1 : (∀ x ∈ Finset.range nn, oW1 m x = none) ↔
      (∀ x ∈ Finset.range nn, oW2 m x = none) := by
    constructor <;> intro h x hx
    · rw [← ho x]; exact h x hx
    · rw [ho x]; exact h x hx
  have h2 : (∀ x ∈ Finset.range nn, iW1 m x = none) ↔
      (∀ x ∈ Finset.range nn, iW2 m x = none) := by
    constructor <;> intro h x hx
    · rw [← hi x]; exact h x hx
    · rw [hi x]; exact h x hx
  have h3 : ∑ x ∈ Finset.range nn, (oW1 m x).getD 0 =
      ∑ x ∈ Finset.range nn, (oW2 m x).getD 0 :=
    Finset.sum_congr rfl (fun x _ => by rw [ho x])
  have h4 : ∑ x ∈ Finset.range nn, (iW1 m x).getD 0 =
      ∑ x ∈ Finset.range nn, (iW2 m x).getD 0 :=
    Finset.sum_congr rfl (fun x _ => by rw [hi x])
  rw [h3, h4]
  by_cases hc1 : ∀ x ∈ Finset.range nn, oW1 m x = none
  · rw [if_pos hc1, if_pos (h1.mp hc1)]
  · rw [if_neg hc1, if_neg (fun hc => hc1 (h1.mpr hc))]
    by_cases hc2 : ∀ x ∈ Finset.range nn, iW1 m x = none
    · rw [if_pos hc2, if_pos (h2.mp hc2)]
    · rw [if_neg hc2, if_neg (fun hc => hc2 (h2.mpr hc))]

/-- Characterization of the bucket maintenance loop: it succeeds when the
index is consistent, refreshing the key of every listed node. -/
theorem bucketFix_spec (nn : Nat) (oW iW : Nat → Nat → Option Int) :
    ∀ (l : List Nat) (R : Finset Nat) (K : Nat → BKey) (T : GState),
      l.Nodup → (∀ x ∈ l, x ∈ R) →
      T.buckets = R.image (fun m => (K m, m)) → T.nodeKey = K →
      ∃ T', bucketFix nn oW iW l T = .ok T' ∧
        T'.buckets = R.image (fun m =>
          ((if m ∈ l then bucketKeyW nn oW iW m else K m), m)) ∧
        T'.nodeKey = (fun m =>
          if m ∈ l then bucketKeyW nn oW iW m else K m) ∧
        T'.inW = T.inW ∧ T'.outW = T.outW ∧ T'.remaining = T.remaining ∧
        T'.left = T.left ∧ T'.right = T.right ∧ T'.feedback = T.feedback
  | [], R, K, T, _, _, hb, hk => by
    have hfun : (fun m => ((if m ∈ ([] : List Nat) then bucketKeyW nn oW iW m
        else K m), m)) = (fun m => (K m, m)) := by
      funext m
      rw [if_neg (List.not_mem_nil m)]
    refine ⟨T, rfl, ?_, ?_, rfl, rfl, rfl, rfl, rfl, rfl⟩
    · rw [hfun]; exact hb
    · funext m
      rw [if_neg (List.not_mem_nil m), hk]
  | io :: l', R, K, T, hnd, hsub, hb, hk => by
    obtain ⟨hio, hnd'⟩ := List.nodup_cons.mp hnd
    have hioR : io ∈ R := hsub io (List.mem_cons_self _ _)
    have hmem : (T.nodeKey io, io) ∈ T.buckets := by
      rw [hb, hk]
      exact Finset.mem_image.mpr ⟨io, hioR, rfl⟩
    have hstep : bucketFixStep nn oW iW T io = .ok { T with
        buckets := insert (bucketKeyW nn oW iW io, io)
          (T.buckets.erase (T.nodeKey io, io))
        nodeKey := fun m => if m = io then bucketKeyW nn oW iW io
          else T.nodeKey m } := by
      rw [bucketFixStep, removeFrom_mem hmem]
      rfl
    have herase : T.buckets.erase (T.nodeKey io, io) =
        (R.erase io).image (fun m => (K m, m)) := by
      rw [hb, hk, ← Finset.image_erase (keyedPair_injective K)]
    have hins : insert (bucketKeyW nn oW iW io, io)
        (T.buckets.erase (T.nodeKey io, io)) =
        R.image (fun m => ((if m = io then bucketKeyW nn oW iW io
          else K m), m)) := by
      rw [herase]
      conv_rhs => rw [← Finset.insert_erase hioR]
      rw [Finset.image_insert]
      have hfun2 : ∀ m ∈ R.erase io,
          ((if m = io then bucketKeyW nn oW iW io else K m), m) = (K m, m) := by
        intro m hm
        rw [if_neg (Finset.ne_of_mem_erase hm)]
      rw [if_pos rfl, Finset.image_congr hfun2]
    obtain ⟨T', hfold, hbuck, hkey, hin, hout, hrem, hleft, hright, hfb⟩ :=
      bucketFix_spec nn oW iW l' R
        (fun m => if m = io then bucketKeyW nn oW iW io else K m)
        { T with
          buckets := insert (bucketKeyW nn oW iW io, io)
            (T.buckets.erase (T.nodeKey io, io))
          nodeKey := fun m => if m = io then bucketKeyW nn oW iW io
            else T.nodeKey m }
        hnd' (fun x hx => hsub x (List.mem_cons_of_mem _ hx))
        (by
          show insert (bucketKeyW nn oW iW io, io)
            (T.buckets.erase (T.nodeKey io, io)) =
            R.image (fun m => ((if m = io then bucketKeyW nn oW iW io
              else K m), m))
          exact hins)
        (by funext m; show (if m = io then bucketKeyW nn oW iW io
          else T.nodeKey m) = _; rw [hk])
    have hfun : (fun m => ((if m ∈ l' then bucketKeyW nn oW iW m
        else (if m = io then bucketKeyW nn oW iW io else K m)), m)) =
        (fun m => ((if m ∈ io :: l' then bucketKeyW nn oW iW m else K m),
          m)) := by
      funext m
      by_cases h1 : m ∈ l'
      · rw [if_pos h1, if_pos (List.mem_cons_of_mem _ h1)]
      · rw [if_neg h1]
        by_cases h2 : m = io
        · rw [if_pos h2, if_pos (by rw [h2]; exact List.mem_cons_self _ _), h2]
        · rw [if_neg h2, if_neg (fun hc => (List.mem_cons.mp hc).elim h2 h1)]
    have hkfun : (fun m => (if m ∈ l' then bucketKeyW nn oW iW m
        else (if m = io then bucketKeyW nn oW iW io else K m))) =
        (fun m => (if m ∈ io :: l' then bucketKeyW nn oW iW m else K m)) := by
      funext m
      by_cases h1 : m ∈ l'
      · rw [if_pos h1, if_pos (List.mem_cons_of_mem _ h1)]
      · rw [if_neg h1]
        by_cases h2 : m = io
        · rw [if_pos h2, if_pos (by rw [h2]; exact List.mem_cons_self _ _), h2]
        · rw [if_neg h2, if_neg (fun hc => (List.mem_cons.mp hc).elim h2 h1)]
    refine ⟨T', ?_, ?_, ?_, hin, hout, hrem, hleft, hright, hfb⟩
    · rw [bucketFix, List.foldlM_cons, hstep]
      exact hfold
    · rw [hbuck]
      show R.image (fun m => ((if m ∈ l' then bucketKeyW nn oW iW m
        else (if m = io then bucketKeyW nn oW iW io else K m)), m)) = _
      rw [hfun]
    · rw [hkey]
      show (fun m => (if m ∈ l' then bucketKeyW nn oW iW m
        else (if m = io then bucketKeyW nn oW iW io else K m))) = _
      rw [hkfun]

/-- Full characterization of `update_removed_node` on a consistent state
whose removed node has no self-loop: it succeeds, removes exactly the entries
incident to `node` from both maps, drops `node` from the key set, and leaves
the bucket index consistent for the surviving nodes. -/
theorem updateRemovedNode_spec (nn : Nat) (n : Nat) (U : GState)
    (hsym : symW U) (hwf : entriesWf U) (hnU : n ∈ U.remaining)
    (hsub : U.remaining ⊆ Finset.range nn)
    (hself : U.inW n n = none)
    (hbuck : U.buckets = (U.remaining.erase n).image
      (fun m => (U.nodeKey m, m)))
    (hkeys : ∀ m ∈ U.remaining, m ≠ n →
      U.nodeKey m = bucketKeyW nn U.outW U.inW m) :
    ∃ V, updateRemovedNode nn n U = .ok V ∧
      V.outW = (fun s t => if s = n ∨ t = n then none else U.outW s t) ∧
      V.inW = (fun t s => if t = n ∨ s = n then none else U.inW t s) ∧
      V.remaining = U.remaining.erase n ∧
      V.left = U.left ∧ V.right = U.right ∧ V.feedback = U.feedback ∧
      V.buckets = V.remaining.image (fun m => (V.nodeKey m, m)) ∧
      (∀ m ∈ V.remaining, V.nodeKey m = bucketKeyW nn V.outW V.inW m) := by
  have hselfo : U.outW n n = none := (hsym n n).trans hself
  have hnik : n ∉ inKeys nn U.inW n := by
    rw [inKeys, Finset.mem_filter]
    rintro ⟨-, h⟩
    exact h hself
  have hik_sub : ∀ m ∈ inKeys nn U.inW n, m ∈ U.remaining.erase n := by
    intro m hm
    have hm' := hm
    rw [inKeys, Finset.mem_filter] at hm'
    have hout : U.outW m n ≠ none := by rw [hsym m n]; exact hm'.2
    refine Finset.mem_erase.mpr ⟨?_, (hwf m n hout).1⟩
    intro he
    exact hnik (he ▸ hm)
  have hok2_sub : ∀ m ∈ ok2F nn n U.inW U.outW, m ∈ U.remaining.erase n := by
    intro m hm
    rw [ok2F, inKeys, Finset.mem_filter] at hm
    obtain ⟨hmr, hm2⟩ := hm
    by_cases hmn : m = n
    · subst hmn
      rw [outW1F] at hm2
      by_cases hik : m ∈ inKeys nn U.inW m
      · exact absurd (if_pos ⟨rfl, hik⟩) hm2
      · rw [if_neg (fun hc => hik hc.2)] at hm2
        exact absurd hselfo hm2
    · have hout : U.outW n m ≠ none := by
        rw [outW1F] at hm2
        by_cases hc : m = n ∧ n ∈ inKeys nn U.inW n
        · exact absurd hc.1 hmn
        · rw [if_neg hc] at hm2; exact hm2
      exact Finset.mem_erase.mpr ⟨hmn, (hwf n m hout).2⟩
  have h1 : ∀ s t, outW2F nn n U.inW U.outW s t =
      if s = n ∨ t = n then none else U.outW s t := by
    intro s t
    by_cases hs : s = n
    · rw [outW2F, if_pos hs, if_pos (Or.inl hs)]
    · rw [outW2F, if_neg hs, outW1F]
      by_cases ht : t = n
      · rw [if_pos (Or.inr ht)]
        by_cases hik : s ∈ inKeys nn U.inW n
        · rw [if_pos ⟨ht, hik⟩]
        · rw [if_neg (fun hc => hik hc.2)]
          by_contra hne
          refine hik ?_
          rw [ht] at hne
          rw [inKeys, Finset.mem_filter]
          refine ⟨Finset.mem_range.mpr (Finset.mem_range.mp
            (hsub (hwf s n hne).1)), ?_⟩
          rw [← hsym s n]; exact hne
      · have hc1 : ¬(t = n ∧ s ∈ inKeys nn U.inW n) := fun hc => ht hc.1
        rw [if_neg hc1, if_neg (show ¬(s = n ∨ t = n) from by
          rintro (hc | hc)
          · exact hs hc
          · exact ht hc)]
  have h2 : ∀ t s, inW2F nn n U.inW U.outW t s =
      if t = n ∨ s = n then none else U.inW t s := by
    intro t s
    by_cases ht : t = n
    · rw [inW2F, if_pos ht, if_pos (Or.inl ht)]
    · rw [inW2F, if_neg ht, inW1F]
      by_cases hs : s = n
      · rw [if_pos (Or.inr hs)]
        by_cases hok : t ∈ ok2F nn n U.inW U.outW
        · rw [if_pos ⟨hs, hok⟩]
        · rw [if_neg (fun hc => hok hc.2)]
          by_contra hne
          refine hok ?_
          rw [hs] at hne
          have houtn : U.outW n t ≠ none := by rw [hsym n t]; exact hne
          rw [ok2F, inKeys, Finset.mem_filter]
          refine ⟨hsub (hwf n t houtn).2, ?_⟩
          rw [outW1F, if_neg (fun hc => ht hc.1)]
          exact houtn
      · have hc1 : ¬(s = n ∧ t ∈ ok2F nn n U.inW U.outW) := fun hc => hs hc.1
        rw [if_neg hc1, if_neg (show ¬(t = n ∨ s = n) from by
          rintro (hc | hc)
          · exact ht hc
          · exact hs hc)]
  have hA_nodup : ((List.range nn).filter
      (fun m => m ∈ inKeys nn U.inW n ∪ ok2F nn n U.inW U.outW)).Nodup :=
    List.Nodup.filter _ (List.nodup_range nn)
  have hA_sub : ∀ x ∈ (List.range nn).filter
      (fun m => m ∈ inKeys nn U.inW n ∪ ok2F nn n U.inW U.outW),
      x ∈ U.remaining.erase n := by
    intro x hx
    have hx' := of_decide_eq_true (List.mem_filter.mp hx).2
    rcases Finset.mem_union.mp hx' with h | h
    · exact hik_sub x h
    · exact hok2_sub x h
  obtain ⟨V, hfold, hbuckV, hkeyV, hinV, houtV, hremV, hleftV, hrightV,
      hfbV⟩ :=
    bucketFix_spec nn (outW2F nn n U.inW U.outW) (inW2F nn n U.inW U.outW)
      ((List.range nn).filter
        (fun m => m ∈ inKeys nn U.inW n ∪ ok2F nn n U.inW U.outW))
      (U.remaining.erase n) U.nodeKey
      { U with inW := inW2F nn n U.inW U.outW
               outW := outW2F nn n U.inW U.outW
               remaining := U.remaining.erase n }
      hA_nodup hA_sub hbuck rfl
  have houtV' : V.outW = outW2F nn n U.inW U.outW := houtV
  have hinV' : V.inW = inW2F nn n U.inW U.outW := hinV
  refine ⟨V, hfold, ?_, ?_, hremV, hleftV, hrightV, hfbV, ?_, ?_⟩
  · rw [houtV']; funext s t; exact h1 s t
  · rw [hinV']; funext t s; exact h2 t s
  · rw [hbuckV, hkeyV, hremV]
  · intro m hm
    rw [hremV] at hm
    rw [houtV', hinV', hkeyV]
    show (if m ∈ (List.range nn).filter
        (fun x => x ∈ inKeys nn U.inW n ∪ ok2F nn n U.inW U.outW)
      then bucketKeyW nn (outW2F nn n U.inW U.outW)
        (inW2F nn n U.inW U.outW) m
      else U.nodeKey m) = _
    by_cases hmA : m ∈ (List.range nn).filter
      (fun x => x ∈ inKeys nn U.inW n ∪ ok2F nn n U.inW U.outW)
    · rw [if_pos hmA]
    · rw [if_neg hmA]
      have hmik : m ∉ inKeys nn U.inW n := by
        intro hc
        have hmrange : m ∈ Finset.range nn := by
          rw [inKeys, Finset.mem_filter] at hc
          exact hc.1
        exact hmA (List.mem_filter.mpr
          ⟨List.mem_range.mpr (Finset.mem_range.mp hmrange),
           decide_eq_true (Finset.mem_union_left _ hc)⟩)
      have hmok : m ∉ ok2F nn n U.inW U.outW := by
        intro hc
        have hmrange : m ∈ Finset.range nn := by
          rw [ok2F, inKeys, Finset.mem_filter] at hc
          exact hc.1
        exact hmA (List.mem_filter.mpr
          ⟨List.mem_range.mpr (Finset.mem_range.mp hmrange),
           decide_eq_true (Finset.mem_union_right _ hc)⟩)
      have hmn : m ≠ n := Finset.ne_of_mem_erase hm
      rw [hkeys m (Finset.mem_of_mem_erase hm) hmn]
      refine bucketKeyW_congr (fun t => ?_) (fun s => ?_)
      · have hcx : ¬(t = n ∧ m ∈ inKeys nn U.inW n) := fun hc => hmik hc.2
        rw [outW2F, if_neg hmn, outW1F, if_neg hcx]
      · have hcx : ¬(s = n ∧ m ∈ ok2F nn n U.inW U.outW) :=
          fun hc => hmok hc.2
        rw [inW2F, if_neg hmn, inW1F, if_neg hcx]

theorem bucketKeyW_eq_sinks {nn : Nat} {oW iW : Nat → Nat → Option Int}
    {n : Nat} (h : bucketKeyW nn oW iW n = .sinks) :
    ∀ m ∈ Finset.range nn, oW n m = none := by
  by_cases h1 : ∀ m ∈ Finset.range nn, oW n m = none
  · exact h1
  · rw [bucketKeyW, if_neg h1] at h
    by_cases h2 : ∀ m ∈ Finset.range nn, iW n m = none
    · rw [if_pos h2] at h; exact absurd h (by intro hc; cases hc)
    · rw [if_neg h2] at h; exact absurd h (by intro hc; cases hc)

theorem bucketKeyW_eq_sources {nn : Nat} {oW iW : Nat → Nat → Option Int}
    {n : Nat} (h : bucketKeyW nn oW iW n = .sources) :
    ∀ m ∈ Finset.range nn, iW n m = none := by
  by_cases h1 : ∀ m ∈ Finset.range nn, oW n m = none
  · rw [bucketKeyW, if_pos h1] at h; exact absurd h (by intro hc; cases hc)
  · rw [bucketKeyW, if_neg h1] at h
    by_cases h2 : ∀ m ∈ Finset.range nn, iW n m = none
    · exact h2
    · rw [if_neg h2] at h; exact absurd h (by intro hc; cases hc)

/-- Re-establishing the loop invariant after one node removal. -/
theorem Inv_after_remove (nn : Nat) (S V : GState) (n : Nat)
    (hsym : symW S) (hwf : entriesWf S) (hns : noSelfE S)
    (hsubr : S.remaining ⊆ Finset.range nn)
    (hnodup : (S.left ++ S.right).Nodup)
    (hplaced : ∀ x ∈ S.left ++ S.right, x ∈ Finset.range nn ∧ x ∉ S.remaining)
    (hcount : S.left.length + S.right.length + S.remaining.card = nn)
    (hn : n ∈ S.remaining)
    (hVo : V.outW = fun s t => if s = n ∨ t = n then none else S.outW s t)
    (hVi : V.inW = fun t s => if t = n ∨ s = n then none else S.inW t s)
    (hVr : V.remaining = S.remaining.erase n)
    (hVb : V.buckets = V.remaining.image (fun m => (V.nodeKey m, m)))
    (hVk : ∀ m ∈ V.remaining, V.nodeKey m = bucketKeyW nn V.outW V.inW m)
    (hperm : (V.left ++ V.right).Perm ((S.left ++ S.right) ++ [n]))
    (hlen : V.left.length + V.right.length =
      S.left.length + S.right.length + 1) :
    Inv nn V ∧ noSelfE V := by
  have hnp : n ∉ S.left ++ S.right := fun hc => (hplaced n hc).2 hn
  refine ⟨⟨?_, ?_, ⟨hVb, ?_⟩, ?_, ?_, ?_, ?_⟩, ?_⟩
  · intro s t
    rw [hVo, hVi]
    show (if s = n ∨ t = n then none else S.outW s t) =
      (if t = n ∨ s = n then none else S.inW t s)
    by_cases hc : s = n ∨ t = n
    · rw [if_pos hc, if_pos (hc.elim Or.inr Or.inl)]
    · rw [if_neg hc, if_neg (fun hd => hc (hd.elim Or.inr Or.inl))]
      exact hsym s t
  · intro s t h
    rw [hVo] at h
    simp only at h
    by_cases hc : s = n ∨ t = n
    · rw [if_pos hc] at h; exact absurd rfl h
    · rw [if_neg hc] at h
      push_neg at hc
      rw [hVr]
      exact ⟨Finset.mem_erase.mpr ⟨hc.1, (hwf s t h).1⟩,
        Finset.mem_erase.mpr ⟨hc.2, (hwf s t h).2⟩⟩
  · intro m hm
    rw [hVk m hm]
    rfl
  · refine (hperm.nodup_iff).mpr ((List.nodup_append).mpr
      ⟨hnodup, List.nodup_singleton n, ?_⟩)
    intro x hx hx'
    rw [List.mem_singleton] at hx'
    exact hnp (hx' ▸ hx)
  · rw [hVr]
    exact fun x hx => hsubr (Finset.mem_of_mem_erase hx)
  · intro x hx
    have hx' := hperm.mem_iff.mp hx
    rw [hVr]
    rcases List.mem_append.mp hx' with h | h
    · exact ⟨(hplaced x h).1, fun hc =>
        (hplaced x h).2 (Finset.mem_of_mem_erase hc)⟩
    · rw [List.mem_singleton] at h
      subst h
      exact ⟨hsubr hn, Finset.not_mem_erase x _⟩
  · rw [hVr, Finset.card_erase_of_mem hn, hlen]
    have hpos : 0 < S.remaining.card := Finset.card_pos.mpr ⟨n, hn⟩
    omega
  · intro m
    rw [hVo]
    show (if m = n ∨ m = n then none else S.outW m m) = none
    by_cases hc : m = n ∨ m = n
    · rw [if_pos hc]
    · rw [if_neg hc]; exact hns m

/-- Membership in a bucket of a consistent state. -/
theorem mem_bucketSet_iff {S : GState}
    (hbk : S.buckets = S.remaining.image (fun m => (S.nodeKey m, m)))
    {k : BKey} {m : Nat} :
    m ∈ bucketSet S.buckets k ↔ m ∈ S.remaining ∧ S.nodeKey m = k := by
  rw [hbk, bucketSet_image, Finset.mem_filter]

/-- Characterization of one iteration of the main loop on an invariant state
with no self-loop entries: the step succeeds, pops a present node following
the sink / source / max-delta preference, removes it from every structure,
charges the feedback total in the max-delta case only (the source case adds
a zero incoming sum), and preserves the invariant. -/
theorem step_spec (nn : Nat) (S : GState) (hInv : Inv nn S)
    (hrne : S.remaining.Nonempty) (hns : noSelfE S) :
    ∃ n S', step nn S = .ok S' ∧ n ∈ S.remaining ∧
      S'.outW = (fun s t => if s = n ∨ t = n then none else S.outW s t) ∧
      S'.inW = (fun t s => if t = n ∨ s = n then none else S.inW t s) ∧
      S'.remaining = S.remaining.erase n ∧ Inv nn S' ∧ noSelfE S' ∧
      (((bucketSet S.buckets .sinks).Nonempty ∧
        S'.right = S.right ++ [n] ∧ S'.left = S.left ∧
        S'.feedback = S.feedback ∧ (∀ t, S.outW n t = none) ∧
        n ∈ bucketSet S.buckets .sinks) ∨
       (¬(bucketSet S.buckets .sinks).Nonempty ∧
        S'.left = S.left ++ [n] ∧ S'.right = S.right ∧
        S'.feedback = S.feedback + rowSum S.inW nn n ∧
        (((bucketSet S.buckets .sources).Nonempty ∧
          n ∈ bucketSet S.buckets .sources ∧ rowSum S.inW nn n = 0) ∨
         (¬(bucketSet S.buckets .sources).Nonempty ∧
          ∃ d : Int, n ∈ bucketSet S.buckets (.delta d) ∧
            ∀ p ∈ S.buckets, ∀ e : Int, p.1 = .delta e → e ≤ d)))) := by
  obtain ⟨hsym, hwf, ⟨hbk, hkeys⟩, hnodup, hsubr, hplaced, hcount⟩ := hInv
  by_cases hsink : (bucketSet S.buckets .sinks).Nonempty
  · -- sink branch
    set n := (bucketSet S.buckets .sinks).min' hsink with hndef
    have hnmem : n ∈ bucketSet S.buckets .sinks := Finset.min'_mem _ hsink
    have hnr : n ∈ S.remaining ∧ S.nodeKey n = .sinks :=
      (mem_bucketSet_iff hbk).mp hnmem
    have hkeyn : bucketKeyW nn S.outW S.inW n = .sinks :=
      (hkeys n hnr.1).symm.trans hnr.2
    have hsrow : ∀ t, S.outW n t = none := by
      intro t
      by_cases ht : t ∈ Finset.range nn
      · exact bucketKeyW_eq_sinks hkeyn t ht
      · by_contra hne
        exact ht (hsubr (hwf n t hne).2)
    obtain ⟨V, hupd, hVo, hVi, hVr, hVl, hVrr, hVf, hVb, hVk⟩ :=
      updateRemovedNode_spec nn n
        { S with buckets := S.buckets.erase (.sinks, n),
                 right := S.right ++ [n] }
        hsym hwf hnr.1 hsubr ((hsym n n).symm.trans (hns n))
        (by
          show S.buckets.erase (.sinks, n) = _
          rw [← hnr.2, hbk, ← Finset.image_erase (keyedPair_injective _)])
        (fun m hm _ => hkeys m hm)
    have hinv' := Inv_after_remove nn S V n hsym hwf hns hsubr hnodup
      hplaced hcount hnr.1 hVo hVi hVr hVb hVk
      (by
        rw [hVl, hVrr]
        show (S.left ++ (S.right ++ [n])).Perm _
        rw [← List.append_assoc])
      (by rw [hVl, hVrr]; simp; omega)
    refine ⟨n, V, ?_, hnr.1, hVo, hVi, hVr, hinv'.1, hinv'.2,
      Or.inl ⟨hsink, ?_, hVl, hVf, hsrow, hnmem⟩⟩
    · rw [step, if_pos hsink, popFrom_spec _ _ hsink]
      exact hupd
    · rw [hVrr]
  · by_cases hsrc : (bucketSet S.buckets .sources).Nonempty
    · -- source branch
      set n := (bucketSet S.buckets .sources).min' hsrc with hndef
      have hnmem : n ∈ bucketSet S.buckets .sources := Finset.min'_mem _ hsrc
      have hnr : n ∈ S.remaining ∧ S.nodeKey n = .sources :=
        (mem_bucketSet_iff hbk).mp hnmem
      have hkeyn : bucketKeyW nn S.outW S.inW n = .sources :=
        (hkeys n hnr.1).symm.trans hnr.2
      have hirow : ∀ m ∈ Finset.range nn, S.inW n m = none :=
        bucketKeyW_eq_sources hkeyn
      have hrz : rowSum S.inW nn n = 0 := by
        rw [rowSum]
        refine Finset.sum_eq_zero (fun m hm => ?_)
        rw [hirow m hm]
        rfl
      obtain ⟨V, hupd, hVo, hVi, hVr, hVl, hVrr, hVf, hVb, hVk⟩ :=
        updateRemovedNode_spec nn n
          { S with buckets := S.buckets.erase (.sources, n),
                   left := S.left ++ [n] }
          hsym hwf hnr.1 hsubr ((hsym n n).symm.trans (hns n))
          (by
            show S.buckets.erase (.sources, n) = _
            rw [← hnr.2, hbk, ← Finset.image_erase (keyedPair_injective _)])
          (fun m hm _ => hkeys m hm)
      have hinv' := Inv_after_remove nn S V n hsym hwf hns hsubr hnodup
        hplaced hcount hnr.1 hVo hVi hVr hVb hVk
        (by
          rw [hVl, hVrr]
          show ((S.left ++ [n]) ++ S.right).Perm _
          rw [List.append_assoc]
          refine (List.Perm.append_left S.left ?_).trans
            (List.Perm.of_eq (List.append_assoc _ _ _).symm)
          exact List.perm_append_comm)
        (by rw [hVl, hVrr]; simp; omega)
      refine ⟨n, V, ?_, hnr.1, hVo, hVi, hVr, hinv'.1, hinv'.2,
        Or.inr ⟨hsink, ?_, ?_, ?_, Or.inl ⟨hsrc, hnmem, hrz⟩⟩⟩
      · rw [step, if_neg hsink, if_pos hsrc, popFrom_spec _ _ hsrc]
        exact hupd
      · rw [hVl]
      · rw [hVrr]
      · rw [hVf, hrz]
        show S.feedback = S.feedback + 0
        ring
    · -- max-delta branch
      have hds : ((S.buckets.filter (fun p =>
          p.1 ≠ BKey.sinks ∧ p.1 ≠ BKey.sources)).image
            (fun p => p.1.dval)).Nonempty := by
        obtain ⟨m, hm⟩ := hrne
        have hkm := hkeys m hm
        rcases hck : bucketKey nn S m with _ | _ | d
        · exact absurd ⟨m, (mem_bucketSet_iff hbk).mpr
            ⟨hm, by rw [hkm, hck]⟩⟩ hsink
        · exact absurd ⟨m, (mem_bucketSet_iff hbk).mpr
            ⟨hm, by rw [hkm, hck]⟩⟩ hsrc
        · refine ⟨d, Finset.mem_image.mpr ⟨(BKey.delta d, m), ?_, rfl⟩⟩
          refine Finset.mem_filter.mpr ⟨?_, ⟨by simp, by simp⟩⟩
          rw [hbk]
          exact Finset.mem_image.mpr ⟨m, hm, by rw [hkm, hck]⟩
      set d := ((S.buckets.filter (fun p =>
        p.1 ≠ BKey.sinks ∧ p.1 ≠ BKey.sources)).image
          (fun p => p.1.dval)).max' hds with hddef
      have hdmem := Finset.max'_mem _ hds
      have hdelta : (bucketSet S.buckets (.delta d)).Nonempty := by
        obtain ⟨p, hp, hpd⟩ := Finset.mem_image.mp hdmem
        obtain ⟨hpB, hp1, hp2⟩ := Finset.mem_filter.mp hp
        rw [hbk] at hpB
        obtain ⟨m, hm, hpm⟩ := Finset.mem_image.mp hpB
        have hp1' : p.1 = S.nodeKey m := by rw [← hpm]
        rcases hck : S.nodeKey m with _ | _ | e
        · rw [hck] at hp1'; exact absurd hp1' hp1
        · rw [hck] at hp1'; exact absurd hp1' hp2
        · refine ⟨m, (mem_bucketSet_iff hbk).mpr ⟨hm, ?_⟩⟩
          rw [hck] at hp1' ⊢
          rw [hp1'] at hpd
          rw [show (BKey.delta e).dval = e from rfl] at hpd
          rw [hpd]
      have hmax : ∀ p ∈ S.buckets, ∀ e : Int, p.1 = .delta e → e ≤ d := by
        intro p hp e hpe
        have hmemd : e ∈ (S.buckets.filter (fun p =>
            p.1 ≠ BKey.sinks ∧ p.1 ≠ BKey.sources)).image
              (fun p => p.1.dval) := by
          refine Finset.mem_image.mpr
            ⟨p, Finset.mem_filter.mpr ⟨hp, ⟨?_, ?_⟩⟩, ?_⟩
          · rw [hpe]; simp
          · rw [hpe]; simp
          · rw [hpe]; rfl
        exact Finset.le_max' _ e hmemd
      have hmd : maxDeltaKey S.buckets = .ok d := by
        rw [maxDeltaKey]
        exact dif_pos hds
      set n := (bucketSet S.buckets (.delta d)).min' hdelta with hndef
      have hnmem : n ∈ bucketSet S.buckets (.delta d) :=
        Finset.min'_mem _ hdelta
      have hnr : n ∈ S.remaining ∧ S.nodeKey n = .delta d :=
        (mem_bucketSet_iff hbk).mp hnmem
      obtain ⟨V, hupd, hVo, hVi, hVr, hVl, hVrr, hVf, hVb, hVk⟩ :=
        updateRemovedNode_spec nn n
          { S with buckets := S.buckets.erase (.delta d, n),
                   left := S.left ++ [n],
                   feedback := S.feedback + rowSum S.inW nn n }
          hsym hwf hnr.1 hsubr ((hsym n n).symm.trans (hns n))
          (by
            show S.buckets.erase (.delta d, n) = _
            rw [← hnr.2, hbk, ← Finset.image_erase (keyedPair_injective _)])
          (fun m hm _ => hkeys m hm)
      have hinv' := Inv_after_remove nn S V n hsym hwf hns hsubr hnodup
        hplaced hcount hnr.1 hVo hVi hVr hVb hVk
        (by
          rw [hVl, hVrr]
          show ((S.left ++ [n]) ++ S.right).Perm _
          rw [List.append_assoc]
          refine (List.Perm.append_left S.left ?_).trans
            (List.Perm.of_eq (List.append_assoc _ _ _).symm)
          exact List.perm_append_comm)
        (by rw [hVl, hVrr]; simp; omega)
      refine ⟨n, V, ?_, hnr.1, hVo, hVi, hVr, hinv'.1, hinv'.2,
        Or.inr ⟨hsink, ?_, ?_, ?_, Or.inr ⟨hsrc, d, hnmem, hmax⟩⟩⟩
      · rw [step, if_neg hsink, if_neg hsrc, hmd]
        show (popFrom S.buckets (BKey.delta d)).bind (fun nB =>
          updateRemovedNode nn nB.1
            { S with buckets := nB.2, left := S.left ++ [nB.1],
                     feedback := S.feedback + rowSum S.inW nn nB.1 }) =
          Except.ok V
        rw [popFrom_spec _ _ hdelta]
        exact hupd
      · rw [hVl]
      · rw [hVrr]
      · rw [hVf]

/-! ### The main loop -/

theorem list_sum_zero (f : Nat → Int) :
    ∀ l : List Nat, (∀ x ∈ l, f x = 0) → (l.map f).sum = 0
  | [], _ => rfl
  | x :: l, h => by
    rw [List.map_cons, List.sum_cons, h x (List.mem_cons_self _ _),
      list_sum_zero f l (fun y hy => h y (List.mem_cons_of_mem _ hy))]
    ring

/-- A duplicate-free list carrying exactly the in-neighborhood universe sums
the incoming row. -/
theorem row_sum_list (nn : Nat) (S : GState) (n : Nat) (hsym : symW S)
    (hwf : entriesWf S) (hns : noSelfE S)
    (hsubr : S.remaining ⊆ Finset.range nn)
    (ord : List Nat) (hnd : ord.Nodup)
    (hmem : ∀ x, x ∈ ord ↔ x ∈ S.remaining.erase n) :
    (ord.map (fun s => (S.outW s n).getD 0)).sum = rowSum S.inW nn n := by
  have h1 : (ord.map (fun s => (S.outW s n).getD 0)).sum =
      ∑ m ∈ ord.toFinset, (S.outW m n).getD 0 :=
    (List.sum_toFinset _ hnd).symm
  have h2 : ord.toFinset = S.remaining.erase n := by
    ext x
    rw [List.mem_toFinset]
    exact hmem x
  have h3 : ∑ m ∈ S.remaining.erase n, (S.outW m n).getD 0 =
      ∑ m ∈ Finset.range nn, (S.outW m n).getD 0 := by
    refine Finset.sum_subset (fun x hx => hsubr (Finset.mem_of_mem_erase hx))
      (fun x _ hx => ?_)
    by_cases hxn : x = n
    · rw [hxn, hns n]; rfl
    · by_cases ho : S.outW x n = none
      · rw [ho]; rfl
      · exact absurd (Finset.mem_erase.mpr ⟨hxn, (hwf x n ho).1⟩) hx
  rw [h1, h2, h3, rowSum]
  exact Finset.sum_congr rfl (fun m _ => by rw [hsym m n])

/-- The loop exits positively only with every node placed; relative to the
entry state it appends a layout of the remaining nodes and adds exactly the
backward weight of the current graph under that layout. -/
theorem loop_run (nn : Nat) :
    ∀ (fuel : Nat) (S F : GState), Inv nn S → noSelfE S →
      loop nn fuel S = .ok F →
      ∃ L R, F.left = S.left ++ L ∧ F.right = S.right ++ R ∧
        (L ++ R.reverse).Nodup ∧
        (∀ x, x ∈ L ++ R.reverse ↔ x ∈ S.remaining) ∧
        F.feedback = S.feedback + backW S.outW (L ++ R.reverse)
  | 0, S, F, hInv, _, hok => by
    rw [loop] at hok
    split at hok
    · exact absurd hok (by intro hc; cases hc)
    · rename_i hge
      have hF : F = S := by cases hok; rfl
      obtain ⟨-, -, -, -, -, -, hcount⟩ := hInv
      have hcard : S.remaining.card = 0 := by omega
      have hempty : S.remaining = ∅ := Finset.card_eq_zero.mp hcard
      refine ⟨[], [], by rw [hF, List.append_nil], by rw [hF, List.append_nil],
        List.nodup_nil, ?_, ?_⟩
      · intro x
        rw [hempty]
        simp
      · rw [hF]
        show S.feedback = S.feedback + backW S.outW []
        rw [backW_nil]
        ring
  | fuel + 1, S, F, hInv, hns, hok => by
    rw [loop] at hok
    split at hok
    · rename_i hlt
      have hrne : S.remaining.Nonempty := by
        obtain ⟨-, -, -, -, -, -, hcount⟩ := hInv
        refine Finset.card_pos.mp (by omega)
      obtain ⟨n, S', hstep, hn, hVo, hVi, hVr, hInv', hns', hbr⟩ :=
        step_spec nn S hInv hrne hns
      rw [hstep] at hok
      have hok' : loop nn fuel S' = .ok F := hok
      obtain ⟨L1, R1, hFl, hFr, hnd1, hmem1, hfb1⟩ :=
        loop_run nn fuel S' F hInv' hns' hok'
      have hmem1' : ∀ x, x ∈ L1 ++ R1.reverse ↔ x ∈ S.remaining.erase n := by
        intro x
        rw [hmem1 x, hVr]
      have hnord1 : n ∉ L1 ++ R1.reverse := by
        intro hc
        exact Finset.not_mem_erase n S.remaining ((hmem1' n).mp hc)
      have hbwcongr : backW S'.outW (L1 ++ R1.reverse) =
          backW S.outW (L1 ++ R1.reverse) := by
        refine backW_congr (fun s hs t ht => ?_)
        rw [hVo]
        show (if s = n ∨ t = n then none else S.outW s t) = S.outW s t
        rw [if_neg (by
          rintro (hc | hc)
          · exact Finset.not_mem_erase n S.remaining
              (hc ▸ (hmem1' s).mp hs)
          · exact Finset.not_mem_erase n S.remaining
              (hc ▸ (hmem1' t).mp ht))]
      have hmemiff : ∀ (x : Nat) (ord1 : List Nat),
          (x ∈ ord1 ↔ x ∈ S.remaining.erase n) →
          ((x ∈ ord1 ∨ x = n) ↔ x ∈ S.remaining) := by
        intro x ord1 h
        constructor
        · rintro (hc | hc)
          · exact Finset.mem_of_mem_erase (h.mp hc)
          · exact hc ▸ hn
        · intro hx
          by_cases hxn : x = n
          · exact Or.inr hxn
          · exact Or.inl (h.mpr (Finset.mem_erase.mpr ⟨hxn, hx⟩))
      rcases hbr with ⟨-, hSr, hSl, hSf, hsrow, -⟩ |
        ⟨-, hSl, hSr, hSf, -⟩
      · -- ` n` went to the right list
        refine ⟨L1, n :: R1, ?_, ?_, ?_, ?_, ?_⟩
        · rw [hFl, hSl]
        · rw [hFr, hSr, List.append_assoc]
          rfl
        · rw [List.reverse_cons, ← List.append_assoc]
          rw [List.nodup_append]
          exact ⟨hnd1, List.nodup_singleton n, fun x hx hx' => by
            rw [List.mem_singleton] at hx'
            exact hnord1 (hx' ▸ hx)⟩
        · intro x
          rw [List.reverse_cons, ← List.append_assoc, List.mem_append,
            List.mem_singleton]
          exact hmemiff x (L1 ++ R1.reverse) (hmem1' x)
        · rw [hfb1, hSf, List.reverse_cons, ← List.append_assoc,
            backW_append_single, hbwcongr,
            list_sum_zero _ _ (fun t _ => by rw [hsrow t]; rfl)]
          ring
      · -- `n` went to the left list
        refine ⟨n :: L1, R1, ?_, ?_, ?_, ?_, ?_⟩
        · rw [hFl, hSl, List.append_assoc]
          rfl
        · rw [hFr, hSr]
        · rw [List.cons_append]
          exact List.nodup_cons.mpr ⟨hnord1, hnd1⟩
        · intro x
          rw [List.cons_append, List.mem_cons]
          rw [show (x = n ∨ x ∈ L1 ++ R1.reverse) =
            (x ∈ L1 ++ R1.reverse ∨ x = n) from propext (or_comm)]
          exact hmemiff x (L1 ++ R1.reverse) (hmem1' x)
        · obtain ⟨hsym, hwf, -, -, hsubr, -, -⟩ := hInv
          rw [hfb1, hSf, List.cons_append, backW_cons, hbwcongr,
            row_sum_list nn S n hsym hwf hns hsubr _ hnd1 hmem1']
          ring
    · rename_i hge
      have hF : F = S := by cases hok; rfl
      obtain ⟨-, -, -, -, -, -, hcount⟩ := hInv
      have hcard : S.remaining.card = 0 := by omega
      have hempty : S.remaining = ∅ := Finset.card_eq_zero.mp hcard
      refine ⟨[], [], by rw [hF, List.append_nil], by rw [hF, List.append_nil],
        List.nodup_nil, ?_, ?_⟩
      · intro x
        rw [hempty]
        simp
      · rw [hF]
        show S.feedback = S.feedback + backW S.outW []
        rw [backW_nil]
        ring

/-- With enough fuel, the loop always succeeds on an invariant state with no
self-loop entries. -/
theorem loop_total (nn : Nat) :
    ∀ (fuel : Nat) (S : GState), Inv nn S → noSelfE S →
      S.remaining.card ≤ fuel → ∃ F, loop nn fuel S = .ok F
  | 0, S, hInv, _, hfuel => by
    by_cases hlt : S.left.length + S.right.length < nn
    · obtain ⟨-, -, -, -, -, -, hcount⟩ := hInv
      omega
    · exact ⟨S, by rw [loop, if_neg hlt]⟩
  | fuel + 1, S, hInv, hns, hfuel => by
    by_cases hlt : S.left.length + S.right.length < nn
    · have hrne : S.remaining.Nonempty := by
        obtain ⟨-, -, -, -, -, -, hcount⟩ := hInv
        exact Finset.card_pos.mp (by omega)
      obtain ⟨n, S', hstep, hn, -, -, hVr, hInv', hns', -⟩ :=
        step_spec nn S hInv hrne hns
      have hcard : S'.remaining.card ≤ fuel := by
        rw [hVr, Finset.card_erase_of_mem hn]
        have : 0 < S.remaining.card := Finset.card_pos.mpr hrne
        omega
      obtain ⟨F, hF⟩ := loop_total nn fuel S' hInv' hns' hcard
      refine ⟨F, ?_⟩
      rw [loop, if_pos hlt, hstep]
      exact hF
    · exact ⟨S, by rw [loop, if_neg hlt]⟩

/-! ### Pipeline assembly -/

theorem apCheck_of_nap {nn : Nat} {S1 : GState} (hsym : symW S1)
    (hnap : ∀ s t, s < nn → t < nn → S1.outW s t ≠ none →
      S1.outW t s = none) : apCheck nn S1 := by
  constructor
  · intro t ht s hs h
    rw [Finset.mem_range] at ht hs
    have ho : S1.outW s t ≠ none := by rw [hsym s t]; exact h
    refine ⟨hsym s t, ?_⟩
    rw [← hsym t s]
    exact hnap s t hs ht ho
  · intro s hs t ht h
    rw [Finset.mem_range] at ht hs
    refine ⟨(hsym s t).symm, ?_⟩
    exact hnap s t hs ht h

/-- Positions in the decoded order agree with positions of compacted ids. -/
theorem indexOf_map_decode (no : List Int) (hno : no.Nodup) :
    ∀ (l : List Nat), (∀ k ∈ l, k < no.length) → ∀ a : Int, a ∈ no →
      List.indexOf a (l.map (fun k => no.getD k 0)) =
        List.indexOf (List.indexOf a no) l
  | [], _, a, _ => rfl
  | k :: l', hk, a, ha => by
    have hkl : k < no.length := hk k (List.mem_cons_self _ _)
    have hia : List.indexOf a no < no.length := List.indexOf_lt_length.mpr ha
    have hdk : no.getD k 0 = no.get ⟨k, hkl⟩ := List.getD_eq_get no 0 hkl
    have hga : no.get ⟨List.indexOf a no, hia⟩ = a := List.indexOf_get hia
    rw [List.map_cons]
    by_cases he : k = List.indexOf a no
    · have : no.getD k 0 = a := by
        rw [hdk]
        rw [← hga]
        congr 1
        exact Fin.ext he
      rw [this, List.indexOf_cons_self, he, List.indexOf_cons_self]
    · have hne : no.getD k 0 ≠ a := by
        rw [hdk, ← hga]
        intro hc
        exact he (Fin.mk.injEq .. ▸ (hno.get_inj_iff.mp hc))
      rw [List.indexOf_cons_ne _ hne, List.indexOf_cons_ne _ he,
        indexOf_map_decode no hno l'
          (fun x hx => hk x (List.mem_cons_of_mem _ hx)) a ha]

theorem okBind {α β : Type} (a : α) (f : α → Except Err β) :
    (Except.ok a : Except Err α).bind f = f a := rfl

theorem checkE_pos {p : Prop} [Decidable p] (h : p) : checkE p = .ok () := by
  unfold checkE
  rw [if_pos h]

/-- Composing the pipeline stages of `compute_order`. -/
theorem computeOrderState_eq (c : List Edge) (seed : Nat) (S1 F : GState)
    (hsc : symCheck (nodeOrderOf c seed).length
      (initGraph (nodeOrderOf c seed).length (compactify (nodeOrderOf c seed) c)))
    (hres : resolveAll (nodeOrderOf c seed).length
      (initGraph (nodeOrderOf c seed).length
        (compactify (nodeOrderOf c seed) c)) = .ok S1)
    (hap : apCheck (nodeOrderOf c seed).length S1)
    (hloopF : loop (nodeOrderOf c seed).length (nodeOrderOf c seed).length
      (initBuckets (nodeOrderOf c seed).length S1) = .ok F) :
    computeOrderState c seed = finalizeOrder c (nodeOrderOf c seed) F := by
  unfold computeOrderState
  dsimp only
  rw [checkE_pos hsc]
  simp only [okBind]
  rw [hres]
  simp only [okBind]
  rw [checkE_pos hap]
  simp only [okBind]
  rw [hloopF]
  simp only [okBind]

/-- Decoding the compacted id of a present node recovers the node. -/
theorem getD_indexOf {no : List Int} {a : Int} (ha : a ∈ no) :
    no.getD (List.indexOf a no) 0 = a := by
  have hia : List.indexOf a no < no.length := List.indexOf_lt_length.mpr ha
  rw [List.getD_eq_get no 0 hia]
  exact List.indexOf_get hia

/-- The backward weight computed on the compacted edge list with respect to a
layout of compacted ids equals the backward weight of the original edge list
under the decoded order. -/
theorem backwardOrig_compacted (c : List Edge) (no : List Int)
    (hno : no.Nodup) (ord : List Nat) (hbnd : ∀ k ∈ ord, k < no.length)
    (hm1 : ∀ r ∈ c, r.1 ∈ no) (hm2 : ∀ r ∈ c, r.2.1 ∈ no) :
    (((compactify no c).filter (fun r =>
      List.indexOf r.2.1 ord < List.indexOf r.1 ord)).map
        (fun r => r.2.2)).sum
    = backwardOrig c (ord.map (fun k => no.getD k 0)) := by
  unfold backwardOrig compactify
  rw [List.filter_map]
  have hpred : ∀ r ∈ c,
      ((fun q : CEdge =>
          decide (List.indexOf q.2.1 ord < List.indexOf q.1 ord)) ∘
        (fun r : Edge =>
          (List.indexOf r.1 no, List.indexOf r.2.1 no, r.2.2))) r =
      decide (List.indexOf r.2.1 (ord.map (fun k => no.getD k 0)) <
        List.indexOf r.1 (ord.map (fun k => no.getD k 0))) := by
    intro r hr
    show decide (List.indexOf (List.indexOf r.2.1 no) ord <
        List.indexOf (List.indexOf r.1 no) ord) = _
    rw [indexOf_map_decode no hno ord hbnd r.2.1 (hm2 r hr),
        indexOf_map_decode no hno ord hbnd r.1 (hm1 r hr)]
  rw [List.filter_congr hpred, List.map_map]
  rfl

/-- The master run theorem: on a self-loop-free input every sanity check
passes, the run succeeds, and it returns a duplicate-free enumeration of the
node universe whose tracked feedback total equals the recomputed backward
weight of the original edge list under the returned order. -/
theorem computeOrder_main (c : List Edge) (seed : Nat) (hnsl : noSelfLoop c) :
    ∃ res fb, computeOrderState c seed = .ok (res, fb) ∧ res.Nodup ∧
      res.toFinset = nodes_from_connections_table c ∧
      fb = backwardOrig c res := by
  have hndno : (nodeOrderOf c seed).Nodup := nodeOrder_nodup c seed
  have hmem1 : ∀ r ∈ c, r.1 ∈ nodeOrderOf c seed := by
    intro r hr
    refine mem_nodeOrder.mpr ?_
    simp only [nodes_from_connections_table, Finset.mem_union,
      List.mem_toFinset, List.mem_map]
    exact Or.inl ⟨r, hr, rfl⟩
  have hmem2 : ∀ r ∈ c, r.2.1 ∈ nodeOrderOf c seed := by
    intro r hr
    refine mem_nodeOrder.mpr ?_
    simp only [nodes_from_connections_table, Finset.mem_union,
      List.mem_toFinset, List.mem_map]
    exact Or.inr ⟨r, hr, rfl⟩
  have hceF : ∀ r ∈ compactify (nodeOrderOf c seed) c,
      r.1 < (nodeOrderOf c seed).length ∧
      r.2.1 < (nodeOrderOf c seed).length := by
    intro r hr
    simp only [compactify, List.mem_map] at hr
    obtain ⟨e, he, hre⟩ := hr
    subst hre
    exact endpoint_lt he
  have hceNS : ∀ r ∈ compactify (nodeOrderOf c seed) c, r.1 ≠ r.2.1 := by
    intro r hr
    simp only [compactify, List.mem_map] at hr
    obtain ⟨e, he, hre⟩ := hr
    subst hre
    intro hcon
    exact hnsl e he
      ((List.indexOf_inj (hmem1 e he) (hmem2 e he)).mp hcon)
  have hsym0 : symW (initGraph (nodeOrderOf c seed).length
      (compactify (nodeOrderOf c seed) c)) := initGraph_symW _ _
  have hsc : symCheck (nodeOrderOf c seed).length
      (initGraph (nodeOrderOf c seed).length
        (compactify (nodeOrderOf c seed) c)) := symW_symCheck hsym0
  have hns0 : noSelfE (initGraph (nodeOrderOf c seed).length
      (compactify (nodeOrderOf c seed) c)) := initGraph_noSelfE _ _ hceNS
  have hwf0 : entriesWf (initGraph (nodeOrderOf c seed).length
      (compactify (nodeOrderOf c seed) c)) := initGraph_entriesWf _ _ hceF
  obtain ⟨S1, hres, hsym1, hchar, hrem, hbuck, hkey, hleft, hright, hsup,
    hbw⟩ := resolveAll_spec (nodeOrderOf c seed).length _ hsym0
  have hns1 : noSelfE S1 := by
    intro m
    rw [hchar m m, if_neg (pairMem_antiPairs_self m)]
    exact hns0 m
  have hwf1 : entriesWf S1 := by
    intro s t h
    have h0 := hwf0 s t (hsup s t h)
    rw [hrem]
    exact h0
  have hap : apCheck (nodeOrderOf c seed).length S1 :=
    apCheck_of_nap hsym1 (resolve_nap hsym0 hns0 hchar)
  have hrem' : S1.remaining = Finset.range (nodeOrderOf c seed).length := hrem
  have hleft' : S1.left = [] := hleft
  have hright' : S1.right = [] := hright
  have hInv2 : Inv (nodeOrderOf c seed).length
      (initBuckets (nodeOrderOf c seed).length S1) := by
    refine ⟨hsym1, hwf1, ⟨?_, fun m _ => rfl⟩, ?_, ?_, ?_, ?_⟩
    · show (Finset.range (nodeOrderOf c seed).length).image
        (fun n => (bucketKey (nodeOrderOf c seed).length S1 n, n)) =
        S1.remaining.image
          (fun m => (bucketKey (nodeOrderOf c seed).length S1 m, m))
      rw [hrem']
    · show (S1.left ++ S1.right).Nodup
      rw [hleft', hright']
      exact List.nodup_nil
    · show S1.remaining ⊆ Finset.range (nodeOrderOf c seed).length
      rw [hrem']
    · show ∀ x ∈ S1.left ++ S1.right, _ ∧ _
      rw [hleft', hright']
      intro x hx
      exact absurd hx (List.not_mem_nil x)
    · show S1.left.length + S1.right.length + S1.remaining.card =
        (nodeOrderOf c seed).length
      rw [hleft', hright', hrem']
      simp
  have hns2 : noSelfE (initBuckets (nodeOrderOf c seed).length S1) := hns1
  obtain ⟨F, hloopF⟩ := loop_total (nodeOrderOf c seed).length
    (nodeOrderOf c seed).length (initBuckets (nodeOrderOf c seed).length S1)
    hInv2 hns2 (by
      show S1.remaining.card ≤ (nodeOrderOf c seed).length
      rw [hrem', Finset.card_range])
  obtain ⟨L, R, hFl, hFr, hndLR, hmemLR, hfbF⟩ :=
    loop_run (nodeOrderOf c seed).length (nodeOrderOf c seed).length
      (initBuckets (nodeOrderOf c seed).length S1) F hInv2 hns2 hloopF
  have hFl' : F.left = L := by
    rw [hFl]
    show S1.left ++ L = L
    rw [hleft']
    rfl
  have hFr' : F.right = R := by
    rw [hFr]
    show S1.right ++ R = R
    rw [hright']
    rfl
  have hmemLR' : ∀ x, x ∈ L ++ R.reverse ↔
      x ∈ Finset.range (nodeOrderOf c seed).length := by
    intro x
    rw [hmemLR x]
    show x ∈ S1.remaining ↔ _
    rw [hrem']
  have hcov : ∀ s, s < (nodeOrderOf c seed).length → s ∈ L ++ R.reverse :=
    fun s hs => (hmemLR' s).mpr (Finset.mem_range.mpr hs)
  have hbnd : ∀ k ∈ L ++ R.reverse, k < (nodeOrderOf c seed).length :=
    fun k hk => Finset.mem_range.mp ((hmemLR' k).mp hk)
  have hfbF' : F.feedback = S1.feedback +
      backW S1.outW (L ++ R.reverse) := hfbF
  have hfb2 : F.feedback =
      backW (initOutW (compactify (nodeOrderOf c seed) c))
        (L ++ R.reverse) := by
    rw [hfbF', hbw (L ++ R.reverse) hndLR hcov]
    show (0 : Int) +
      backW (initOutW (compactify (nodeOrderOf c seed) c))
        (L ++ R.reverse) = _
    rw [zero_add]
  have hceOrd : ∀ r ∈ compactify (nodeOrderOf c seed) c,
      r.1 ∈ L ++ R.reverse ∧ r.2.1 ∈ L ++ R.reverse ∧ r.1 ≠ r.2.1 :=
    fun r hr => ⟨hcov _ (hceF r hr).1, hcov _ (hceF r hr).2, hceNS r hr⟩
  have hfb4 : F.feedback = backwardOrig c ((L ++ R.reverse).map
      (fun k => (nodeOrderOf c seed).getD k 0)) := by
    rw [hfb2, backW_init (L ++ R.reverse) hndLR _ hceOrd,
      backwardOrig_compacted c (nodeOrderOf c seed) hndno
        (L ++ R.reverse) hbnd hmem1 hmem2]
  have hresmem : ∀ r ∈ c, r.1 ∈ (L ++ R.reverse).map
      (fun k => (nodeOrderOf c seed).getD k 0) ∧
      r.2.1 ∈ (L ++ R.reverse).map
        (fun k => (nodeOrderOf c seed).getD k 0) := by
    intro r hr
    constructor
    · exact List.mem_map.mpr ⟨List.indexOf r.1 (nodeOrderOf c seed),
        hcov _ (endpoint_lt hr).1, getD_indexOf (hmem1 r hr)⟩
    · exact List.mem_map.mpr ⟨List.indexOf r.2.1 (nodeOrderOf c seed),
        hcov _ (endpoint_lt hr).2, getD_indexOf (hmem2 r hr)⟩
  have hfsw : ((c.filter (fun r =>
      List.indexOf r.2.1 ((L ++ R.reverse).map
        (fun k => (nodeOrderOf c seed).getD k 0)) <
      List.indexOf r.1 ((L ++ R.reverse).map
        (fun k => (nodeOrderOf c seed).getD k 0)))).map
          (fun r => r.2.2)).sum = F.feedback := hfb4.symm
  have hfin : finalizeOrder c (nodeOrderOf c seed) F =
      .ok ((L ++ R.reverse).map (fun k => (nodeOrderOf c seed).getD k 0),
        F.feedback) := by
    unfold finalizeOrder
    dsimp only
    rw [hFl', hFr', if_pos hresmem, if_pos hfsw]
  refine ⟨(L ++ R.reverse).map (fun k => (nodeOrderOf c seed).getD k 0),
    F.feedback, ?_, ?_, ?_, hfb4⟩
  · rw [computeOrderState_eq c seed S1 F hsc hres hap hloopF, hfin]
  · refine hndLR.map_on ?_
    intro x hx y hy hxy
    have hxl := hbnd x hx
    have hyl := hbnd y hy
    rw [List.getD_eq_get _ 0 hxl, List.getD_eq_get _ 0 hyl] at hxy
    exact congrArg Fin.val (hndno.get_inj_iff.mp hxy)
  · ext a
    simp only [List.mem_toFinset, List.mem_map]
    constructor
    · rintro ⟨k, hk, hka⟩
      have hkl := hbnd k hk
      have hmemk : (nodeOrderOf c seed).getD k 0 ∈ nodeOrderOf c seed := by
        rw [List.getD_eq_get _ 0 hkl]
        exact List.get_mem _ _ _
      rw [← hka]
      exact mem_nodeOrder.mp hmemk
    · intro ha
      have ha' : a ∈ nodeOrderOf c seed := mem_nodeOrder.mpr ha
      exact ⟨List.indexOf a (nodeOrderOf c seed),
        hcov _ (List.indexOf_lt_length.mpr ha'), getD_indexOf ha'⟩

/-! ### Acyclic inputs -/

/-- The edge relation of the input list. -/
def edgeRel (c : List Edge) (u v : Int) : Prop := ∃ w, (u, v, w) ∈ c

/-- The input graph is acyclic: no node lies on a directed cycle. -/
def acyclicE (c : List Edge) : Prop :=
  ∀ a, ¬ Relation.TransGen (edgeRel c) a a

/-- The entry relation of an adjacency map. -/
def entRel (w : Nat → Nat → Option Int) (u v : Nat) : Prop := w u v ≠ none

/-- An adjacency map with no directed cycle. -/
def acyclicW (w : Nat → Nat → Option Int) : Prop :=
  ∀ a, ¬ Relation.TransGen (entRel w) a a

theorem acyclicW_mono {w1 w2 : Nat → Nat → Option Int}
    (h : ∀ u v, w1 u v ≠ none → w2 u v ≠ none) (h2 : acyclicW w2) :
    acyclicW w1 := by
  intro a ha
  refine h2 a (Relation.TransGen.lift id (fun u v hp => h u v hp) ha)

/-- An acyclic input has no self-loop edge. -/
theorem acyclicE_noSelfLoop {c : List Edge} (h : acyclicE c) :
    noSelfLoop c := by
  intro r hr hc
  refine h r.1 (Relation.TransGen.single ⟨r.2.2, ?_⟩)
  nth_rewrite 2 [hc]
  exact hr

/-- A finite acyclic graph state with nodes remaining has a node with an
empty out-row (the well-founded minimum of the reversed reachability
relation on the remaining nodes). -/
theorem exists_sink (S : GState) (hwf : entriesWf S) (hacy : acyclicW S.outW)
    (hne : S.remaining.Nonempty) :
    ∃ n ∈ S.remaining, ∀ m, S.outW n m = none := by
  classical
  haveI hirr : IsIrrefl {x // x ∈ S.remaining}
      (Relation.TransGen (fun u v : {x // x ∈ S.remaining} =>
        S.outW v.val u.val ≠ none)) := by
    constructor
    intro a ha
    refine hacy a.val ?_
    have hsw : Relation.TransGen (Function.swap (entRel S.outW))
        a.val a.val :=
      Relation.TransGen.lift (fun x : {x // x ∈ S.remaining} => x.val)
        (fun u v h => h) ha
    exact Relation.transGen_swap.mp hsw
  have hwfd := Finite.wellFounded_of_trans_of_irrefl
    (Relation.TransGen (fun u v : {x // x ∈ S.remaining} =>
      S.outW v.val u.val ≠ none))
  obtain ⟨x0, hx0⟩ := hne
  obtain ⟨a, -, hmin⟩ := hwfd.has_min Set.univ ⟨⟨x0, hx0⟩, Set.mem_univ _⟩
  refine ⟨a.val, a.property, ?_⟩
  intro m
  by_contra hm
  have hmm : m ∈ S.remaining := (hwf a.val m hm).2
  exact hmin ⟨m, hmm⟩ (Set.mem_univ _) (Relation.TransGen.single hm)

/-- On an acyclic state the loop only ever pops sinks: the feedback total and
the left list never change, and the right list records the removals in an
order where every surviving entry points from a later to an earlier
removal. -/
theorem loop_acyclic (nn : Nat) :
    ∀ (fuel : Nat) (S F : GState), Inv nn S → noSelfE S →
      acyclicW S.outW → loop nn fuel S = .ok F →
      F.feedback = S.feedback ∧ F.left = S.left ∧
      ∃ R, F.right = S.right ++ R ∧ R.Nodup ∧
        (∀ x, x ∈ R ↔ x ∈ S.remaining) ∧
        (∀ s t, S.outW s t ≠ none → s ∈ R → t ∈ R →
          List.indexOf t R < List.indexOf s R)
  | 0, S, F, hInv, _, _, hok => by
    rw [loop] at hok
    split at hok
    · exact absurd hok (by intro hc; cases hc)
    · rename_i hge
      have hF : F = S := by cases hok; rfl
      obtain ⟨-, -, -, -, -, -, hcount⟩ := hInv
      have hcard : S.remaining.card = 0 := by omega
      have hempty : S.remaining = ∅ := Finset.card_eq_zero.mp hcard
      refine ⟨by rw [hF], by rw [hF], [], by rw [hF, List.append_nil],
        List.nodup_nil, ?_, ?_⟩
      · intro x
        rw [hempty]
        simp
      · intro s t _ hs _
        exact absurd hs (List.not_mem_nil s)
  | fuel + 1, S, F, hInv, hns, hacy, hok => by
    rw [loop] at hok
    split at hok
    · rename_i hlt
      have hrne : S.remaining.Nonempty := by
        obtain ⟨-, -, -, -, -, -, hcount⟩ := hInv
        exact Finset.card_pos.mp (by omega)
      obtain ⟨n, S', hstep, hn, hVo, hVi, hVr, hInv', hns', hbr⟩ :=
        step_spec nn S hInv hrne hns
      obtain ⟨n0, hn0r, hn0row⟩ := exists_sink S hInv.2.1 hacy hrne
      have hsinkne : (bucketSet S.buckets BKey.sinks).Nonempty := by
        obtain ⟨-, -, ⟨hbk, hkeys⟩, -⟩ := hInv
        refine ⟨n0, (mem_bucketSet_iff hbk).mpr ⟨hn0r, ?_⟩⟩
        rw [hkeys n0 hn0r]
        show bucketKeyW nn S.outW S.inW n0 = BKey.sinks
        unfold bucketKeyW
        rw [if_pos (fun m _ => hn0row m)]
      rcases hbr with ⟨-, hSr, hSl, hSf, hsrow, -⟩ | ⟨hcontra, -⟩
      swap
      · exact absurd hsinkne hcontra
      have hacy' : acyclicW S'.outW := by
        refine acyclicW_mono ?_ hacy
        intro u v h hc
        refine h ?_
        rw [hVo]
        show (if u = n ∨ v = n then none else S.outW u v) = none
        split
        · rfl
        · exact hc
      rw [hstep] at hok
      have hok' : loop nn fuel S' = .ok F := hok
      obtain ⟨hfb', hleft', R', hright', hnd', hmem', hord'⟩ :=
        loop_acyclic nn fuel S' F hInv' hns' hacy' hok'
      have hmem'' : ∀ x, x ∈ R' ↔ x ∈ S.remaining.erase n := by
        intro x
        rw [hmem' x, hVr]
      have hnR' : n ∉ R' := fun hc =>
        Finset.not_mem_erase n S.remaining ((hmem'' n).mp hc)
      refine ⟨hfb'.trans hSf, hleft'.trans hSl, n :: R', ?_, ?_, ?_, ?_⟩
      · rw [hright', hSr, List.append_assoc]
        rfl
      · exact List.nodup_cons.mpr ⟨hnR', hnd'⟩
      · intro x
        rw [List.mem_cons]
        constructor
        · rintro (h | h)
          · exact h ▸ hn
          · exact Finset.mem_of_mem_erase ((hmem'' x).mp h)
        · intro hx
          by_cases hxn : x = n
          · exact Or.inl hxn
          · exact Or.inr ((hmem'' x).mpr (Finset.mem_erase.mpr ⟨hxn, hx⟩))
      · intro s t hst hs ht
        by_cases hsn : s = n
        · rw [hsn] at hst
          exact absurd (hsrow t) hst
        · by_cases htn : t = n
          · subst htn
            rw [List.indexOf_cons_self,
              List.indexOf_cons_ne _ (fun hc => hsn hc.symm)]
            exact Nat.succ_pos _
          · have hs' : s ∈ R' := by
              rcases List.mem_cons.mp hs with h | h
              · exact absurd h hsn
              · exact h
            have ht' : t ∈ R' := by
              rcases List.mem_cons.mp ht with h | h
              · exact absurd h htn
              · exact h
            have hst' : S'.outW s t ≠ none := by
              rw [hVo]
              show (if s = n ∨ t = n then none else S.outW s t) ≠ none
              rw [if_neg (by rintro (h | h); exacts [hsn h, htn h])]
              exact hst
            have hlt' := hord' s t hst' hs' ht'
            rw [List.indexOf_cons_ne _ (fun hc => hsn hc.symm),
              List.indexOf_cons_ne _ (fun hc => htn hc.symm)]
            omega
    · rename_i hge
      have hF : F = S := by cases hok; rfl
      obtain ⟨-, -, -, -, -, -, hcount⟩ := hInv
      have hcard : S.remaining.card = 0 := by omega
      have hempty : S.remaining = ∅ := Finset.card_eq_zero.mp hcard
      refine ⟨by rw [hF], by rw [hF], [], by rw [hF, List.append_nil],
        List.nodup_nil, ?_, ?_⟩
      · intro x
        rw [hempty]
        simp
      · intro s t _ hs _
        exact absurd hs (List.not_mem_nil s)

/-- In a duplicate-free list the position of a member is recovered from any
index that holds it. -/
theorem nodup_indexOf_eq {l : List Nat} (hnd : l.Nodup) {i : Nat}
    (h : i < l.length) {a : Nat} (ha : l.get ⟨i, h⟩ = a) :
    List.indexOf a l = i := by
  have hm : a ∈ l := ha ▸ List.get_mem l i h
  have hia := List.indexOf_lt_length.mpr hm
  have hg := List.indexOf_get hia
  exact congrArg Fin.val (hnd.get_inj_iff.mp (hg.trans ha.symm))

/-- The position of a member in the reversed duplicate-free list. -/
theorem indexOf_reverse {l : List Nat} (hnd : l.Nodup) {a : Nat}
    (ha : a ∈ l) :
    List.indexOf a l.reverse = l.length - 1 - List.indexOf a l := by
  have hia := List.indexOf_lt_length.mpr ha
  have hlen : l.length - 1 - List.indexOf a l < l.reverse.length := by
    rw [List.length_reverse]
    omega
  refine nodup_indexOf_eq (List.nodup_reverse.mpr hnd) hlen ?_
  rw [List.get_eq_getElem]
  rw [List.getElem_reverse]
  have harith : l.length - 1 - (l.length - 1 - List.indexOf a l) =
      List.indexOf a l := by omega
  have hg := List.indexOf_get hia
  rw [List.get_eq_getElem] at hg
  rw [show l[l.length - 1 - (l.length - 1 - List.indexOf a l)] =
      l[List.indexOf a l] from by congr 1]
  exact hg

/-- Each input edge yields an entry of the freshly merged adjacency map. -/
theorem initOutW_of_mem (no : List Int) {c : List Edge} {r : Edge}
    (hr : r ∈ c) :
    initOutW (compactify no c) (List.indexOf r.1 no)
      (List.indexOf r.2.1 no) ≠ none := by
  have hmem : (List.indexOf r.1 no, List.indexOf r.2.1 no, r.2.2) ∈
      ((compactify no c).filter
        (fun q => q.1 = List.indexOf r.1 no)).filter
          (fun q => q.2.1 = List.indexOf r.2.1 no) := by
    refine List.mem_filter.mpr ⟨List.mem_filter.mpr ⟨?_, ?_⟩, ?_⟩
    · simp only [compactify, List.mem_map]
      exact ⟨r, hr, rfl⟩
    · simp
    · simp
  simp only [initOutW]
  rw [if_neg (List.ne_nil_of_mem hmem)]
  exact Option.some_ne_none _

/-- Each entry of the merged adjacency map decodes to an input edge. -/
theorem initOutW_edgeRel {c : List Edge} {seed : Nat} {u v : Nat}
    (h : initOutW (compactify (nodeOrderOf c seed) c) u v ≠ none) :
    edgeRel c ((nodeOrderOf c seed).getD u 0)
      ((nodeOrderOf c seed).getD v 0) := by
  obtain ⟨r, hr, hr1, hr2⟩ := initOutW_support h
  simp only [compactify, List.mem_map] at hr
  obtain ⟨e, he, hre⟩ := hr
  subst hre
  simp only at hr1 hr2
  have hm1 : e.1 ∈ nodeOrderOf c seed := by
    refine mem_nodeOrder.mpr ?_
    simp only [nodes_from_connections_table, Finset.mem_union,
      List.mem_toFinset, List.mem_map]
    exact Or.inl ⟨e, he, rfl⟩
  have hm2 : e.2.1 ∈ nodeOrderOf c seed := by
    refine mem_nodeOrder.mpr ?_
    simp only [nodes_from_connections_table, Finset.mem_union,
      List.mem_toFinset, List.mem_map]
    exact Or.inr ⟨e, he, rfl⟩
  rw [← hr1, ← hr2, getD_indexOf hm1, getD_indexOf hm2]
  exact ⟨e.2.2, he⟩

/-- The master acyclic run: on an acyclic input the anti-parallel phase is a
no-op, the loop pops only sinks, the run succeeds with feedback total zero,
and the returned order places every edge source strictly before its
target. -/
theorem computeOrder_acyclic (c : List Edge) (seed : Nat)
    (hacy : acyclicE c) :
    ∃ res, computeOrderState c seed = .ok (res, 0) ∧ res.Nodup ∧
      res.toFinset = nodes_from_connections_table c ∧
      ∀ r ∈ c, List.indexOf r.1 res < List.indexOf r.2.1 res := by
  have hnsl : noSelfLoop c := acyclicE_noSelfLoop hacy
  have hndno : (nodeOrderOf c seed).Nodup := nodeOrder_nodup c seed
  have hmem1 : ∀ r ∈ c, r.1 ∈ nodeOrderOf c seed := by
    intro r hr
    refine mem_nodeOrder.mpr ?_
    simp only [nodes_from_connections_table, Finset.mem_union,
      List.mem_toFinset, List.mem_map]
    exact Or.inl ⟨r, hr, rfl⟩
  have hmem2 : ∀ r ∈ c, r.2.1 ∈ nodeOrderOf c seed := by
    intro r hr
    refine mem_nodeOrder.mpr ?_
    simp only [nodes_from_connections_table, Finset.mem_union,
      List.mem_toFinset, List.mem_map]
    exact Or.inr ⟨r, hr, rfl⟩
  have hceF : ∀ r ∈ compactify (nodeOrderOf c seed) c,
      r.1 < (nodeOrderOf c seed).length ∧
      r.2.1 < (nodeOrderOf c seed).length := by
    intro r hr
    simp only [compactify, List.mem_map] at hr
    obtain ⟨e, he, hre⟩ := hr
    subst hre
    exact endpoint_lt he
  have hceNS : ∀ r ∈ compactify (nodeOrderOf c seed) c, r.1 ≠ r.2.1 := by
    intro r hr
    simp only [compactify, List.mem_map] at hr
    obtain ⟨e, he, hre⟩ := hr
    subst hre
    intro hcon
    exact hnsl e he
      ((List.indexOf_inj (hmem1 e he) (hmem2 e he)).mp hcon)
  have hsym0 : symW (initGraph (nodeOrderOf c seed).length
      (compactify (nodeOrderOf c seed) c)) := initGraph_symW _ _
  have hsc : symCheck (nodeOrderOf c seed).length
      (initGraph (nodeOrderOf c seed).length
        (compactify (nodeOrderOf c seed) c)) := symW_symCheck hsym0
  have hns0 : noSelfE (initGraph (nodeOrderOf c seed).length
      (compactify (nodeOrderOf c seed) c)) := initGraph_noSelfE _ _ hceNS
  have hwf0 : entriesWf (initGraph (nodeOrderOf c seed).length
      (compactify (nodeOrderOf c seed) c)) := initGraph_entriesWf _ _ hceF
  have hacyW0 : acyclicW (initGraph (nodeOrderOf c seed).length
      (compactify (nodeOrderOf c seed) c)).outW := by
    intro a ha
    refine hacy ((nodeOrderOf c seed).getD a 0) ?_
    exact Relation.TransGen.lift (fun k => (nodeOrderOf c seed).getD k 0)
      (fun u v h => initOutW_edgeRel h) ha
  have hnap0 : ∀ s t, s < (nodeOrderOf c seed).length →
      t < (nodeOrderOf c seed).length →
      (initGraph (nodeOrderOf c seed).length
        (compactify (nodeOrderOf c seed) c)).outW s t ≠ none →
      (initGraph (nodeOrderOf c seed).length
        (compactify (nodeOrderOf c seed) c)).outW t s = none := by
    intro s t _ _ hst
    by_contra hts
    exact hacyW0 s
      (Relation.TransGen.tail (Relation.TransGen.single hst) hts)
  have hap : apCheck (nodeOrderOf c seed).length
      (initGraph (nodeOrderOf c seed).length
        (compactify (nodeOrderOf c seed) c)) :=
    apCheck_of_nap hsym0 hnap0
  have hap0 : antiPairs (nodeOrderOf c seed).length
      (initGraph (nodeOrderOf c seed).length
        (compactify (nodeOrderOf c seed) c)) = [] := by
    rw [List.eq_nil_iff_forall_not_mem]
    intro p hp
    obtain ⟨hlt, h1, h2, hi1, hi2⟩ := antiPairs_sound hp
    have ho1 : (initGraph (nodeOrderOf c seed).length
        (compactify (nodeOrderOf c seed) c)).outW p.1 p.2 ≠ none := by
      rw [hsym0 p.1 p.2]
      exact hi1
    have ho2 : (initGraph (nodeOrderOf c seed).length
        (compactify (nodeOrderOf c seed) c)).outW p.2 p.1 ≠ none := by
      rw [hsym0 p.2 p.1]
      exact hi2
    exact absurd (hnap0 p.1 p.2 h1 h2 ho1) ho2
  have hres : resolveAll (nodeOrderOf c seed).length
      (initGraph (nodeOrderOf c seed).length
        (compactify (nodeOrderOf c seed) c)) = .ok
          (initGraph (nodeOrderOf c seed).length
            (compactify (nodeOrderOf c seed) c)) := by
    unfold resolveAll
    rw [hap0]
    rfl
  have hInv2 : Inv (nodeOrderOf c seed).length
      (initBuckets (nodeOrderOf c seed).length
        (initGraph (nodeOrderOf c seed).length
          (compactify (nodeOrderOf c seed) c))) := by
    refine ⟨hsym0, hwf0, ⟨rfl, fun m _ => rfl⟩, List.nodup_nil,
      fun x hx => hx, fun x hx => absurd hx (List.not_mem_nil x), ?_⟩
    show (0 : Nat) + 0 + (Finset.range (nodeOrderOf c seed).length).card =
      (nodeOrderOf c seed).length
    rw [Finset.card_range]
    omega
  have hns2 : noSelfE (initBuckets (nodeOrderOf c seed).length
      (initGraph (nodeOrderOf c seed).length
        (compactify (nodeOrderOf c seed) c))) := hns0
  have hacyW2 : acyclicW (initBuckets (nodeOrderOf c seed).length
      (initGraph (nodeOrderOf c seed).length
        (compactify (nodeOrderOf c seed) c))).outW := hacyW0
  obtain ⟨F, hloopF⟩ := loop_total (nodeOrderOf c seed).length
    (nodeOrderOf c seed).length
    (initBuckets (nodeOrderOf c seed).length
      (initGraph (nodeOrderOf c seed).length
        (compactify (nodeOrderOf c seed) c))) hInv2 hns2
    (by
      show (Finset.range (nodeOrderOf c seed).length).card ≤
        (nodeOrderOf c seed).length
      simp)
  obtain ⟨hFfb, hFleft, R, hFright, hndR, hmemR, hordR⟩ :=
    loop_acyclic (nodeOrderOf c seed).length (nodeOrderOf c seed).length
      (initBuckets (nodeOrderOf c seed).length
        (initGraph (nodeOrderOf c seed).length
          (compactify (nodeOrderOf c seed) c))) F hInv2 hns2 hacyW2 hloopF
  have hFfb' : F.feedback = 0 := hFfb
  have hFleft' : F.left = [] := hFleft
  have hFright' : F.right = R := by
    rw [hFright]
    rfl
  have hmemR' : ∀ x, x ∈ R ↔
      x ∈ Finset.range (nodeOrderOf c seed).length := hmemR
  have hndrev : R.reverse.Nodup := List.nodup_reverse.mpr hndR
  have hbnd : ∀ k ∈ R.reverse, k < (nodeOrderOf c seed).length :=
    fun k hk => Finset.mem_range.mp ((hmemR' k).mp (List.mem_reverse.mp hk))
  have hcov : ∀ s, s < (nodeOrderOf c seed).length → s ∈ R.reverse :=
    fun s hs => List.mem_reverse.mpr
      ((hmemR' s).mpr (Finset.mem_range.mpr hs))
  have htopo : ∀ r ∈ c, List.indexOf r.1 (R.reverse.map
      (fun k => (nodeOrderOf c seed).getD k 0)) <
      List.indexOf r.2.1 (R.reverse.map
        (fun k => (nodeOrderOf c seed).getD k 0)) := by
    intro r hr
    have hu := (@endpoint_lt c seed r hr).1
    have hv := (@endpoint_lt c seed r hr).2
    have hent : (initBuckets (nodeOrderOf c seed).length
        (initGraph (nodeOrderOf c seed).length
          (compactify (nodeOrderOf c seed) c))).outW
        (List.indexOf r.1 (nodeOrderOf c seed))
        (List.indexOf r.2.1 (nodeOrderOf c seed)) ≠ none :=
      initOutW_of_mem (nodeOrderOf c seed) hr
    have hsR : List.indexOf r.1 (nodeOrderOf c seed) ∈ R :=
      (hmemR' _).mpr (Finset.mem_range.mpr hu)
    have htR : List.indexOf r.2.1 (nodeOrderOf c seed) ∈ R :=
      (hmemR' _).mpr (Finset.mem_range.mpr hv)
    have hlt := hordR _ _ hent hsR htR
    have hiu := List.indexOf_lt_length.mpr hsR
    have hiv := List.indexOf_lt_length.mpr htR
    rw [indexOf_map_decode (nodeOrderOf c seed) hndno R.reverse hbnd r.1
        (hmem1 r hr),
      indexOf_map_decode (nodeOrderOf c seed) hndno R.reverse hbnd r.2.1
        (hmem2 r hr),
      indexOf_reverse hndR hsR, indexOf_reverse hndR htR]
    omega
  have hfilter : c.filter (fun r =>
      List.indexOf r.2.1 (R.reverse.map
        (fun k => (nodeOrderOf c seed).getD k 0)) <
      List.indexOf r.1 (R.reverse.map
        (fun k => (nodeOrderOf c seed).getD k 0))) = [] := by
    rw [List.filter_eq_nil]
    intro r hr
    simp only [decide_eq_true_eq, not_lt]
    exact le_of_lt (htopo r hr)
  have hfsw : ((c.filter (fun r =>
      List.indexOf r.2.1 (R.reverse.map
        (fun k => (nodeOrderOf c seed).getD k 0)) <
      List.indexOf r.1 (R.reverse.map
        (fun k => (nodeOrderOf c seed).getD k 0)))).map
          (fun r => r.2.2)).sum = F.feedback := by
    rw [hfilter, hFfb']
    rfl
  have hresmem : ∀ r ∈ c, r.1 ∈ R.reverse.map
      (fun k => (nodeOrderOf c seed).getD k 0) ∧
      r.2.1 ∈ R.reverse.map
        (fun k => (nodeOrderOf c seed).getD k 0) := by
    intro r hr
    constructor
    · exact List.mem_map.mpr ⟨List.indexOf r.1 (nodeOrderOf c seed),
        hcov _ (endpoint_lt hr).1, getD_indexOf (hmem1 r hr)⟩
    · exact List.mem_map.mpr ⟨List.indexOf r.2.1 (nodeOrderOf c seed),
        hcov _ (endpoint_lt hr).2, getD_indexOf (hmem2 r hr)⟩
  have hfin : finalizeOrder c (nodeOrderOf c seed) F =
      .ok (R.reverse.map (fun k => (nodeOrderOf c seed).getD k 0),
        F.feedback) := by
    unfold finalizeOrder
    dsimp only
    rw [hFleft', hFright', List.nil_append, if_pos hresmem, if_pos hfsw]
  refine ⟨R.reverse.map (fun k => (nodeOrderOf c seed).getD k 0),
    ?_, ?_, ?_, htopo⟩
  · rw [computeOrderState_eq c seed _ F hsc hres hap hloopF, hfin, hFfb']
  · refine hndrev.map_on ?_
    intro x hx y hy hxy
    have hxl := hbnd x hx
    have hyl := hbnd y hy
    rw [List.getD_eq_get _ 0 hxl, List.getD_eq_get _ 0 hyl] at hxy
    exact congrArg Fin.val (hndno.get_inj_iff.mp hxy)
  · ext a
    simp only [List.mem_toFinset, List.mem_map]
    constructor
    · rintro ⟨k, hk, hka⟩
      have hkl := hbnd k hk
      have hmemk : (nodeOrderOf c seed).getD k 0 ∈ nodeOrderOf c seed := by
        rw [List.getD_eq_get _ 0 hkl]
        exact List.get_mem _ _ _
      rw [← hka]
      exact mem_nodeOrder.mp hmemk
    · intro ha
      have ha' : a ∈ nodeOrderOf c seed := mem_nodeOrder.mpr ha
      exact ⟨List.indexOf a (nodeOrderOf c seed),
        hcov _ (List.indexOf_lt_length.mpr ha'), getD_indexOf ha'⟩

/-! ### Failure of the post-resolution sanity check on self-loops -/

theorem checkE_neg {p : Prop} [Decidable p] (h : ¬ p) :
    checkE p = .error .assertionError := by
  unfold checkE
  rw [if_neg h]

/-- The pipeline stops with `AssertionError` when the post-resolution sanity
check fails. -/
theorem computeOrderState_apFail (c : List Edge) (seed : Nat) (S1 : GState)
    (hsc : symCheck (nodeOrderOf c seed).length
      (initGraph (nodeOrderOf c seed).length (compactify (nodeOrderOf c seed) c)))
    (hres : resolveAll (nodeOrderOf c seed).length
      (initGraph (nodeOrderOf c seed).length
        (compactify (nodeOrderOf c seed) c)) = .ok S1)
    (hap : ¬ apCheck (nodeOrderOf c seed).length S1) :
    computeOrderState c seed = .error .assertionError := by
  unfold computeOrderState
  dsimp only
  rw [checkE_pos hsc]
  simp only [okBind]
  rw [hres]
  simp only [okBind]
  rw [checkE_neg hap]
  rfl

/-- The single edge `0 → 1` forms an acyclic graph. -/
theorem acyclicE_single5 : acyclicE [((0:Int), (1:Int), (5:Int))] := by
  intro a ha
  have hchar : ∀ u v : Int,
      Relation.TransGen (edgeRel [((0:Int), (1:Int), (5:Int))]) u v →
      u = 0 ∧ v = 1 := by
    intro u v h
    induction h with
    | single h1 =>
      obtain ⟨w, hw⟩ := h1
      rw [List.mem_singleton] at hw
      exact ⟨congrArg Prod.fst hw, congrArg (fun p => p.2.1) hw⟩
    | tail hp h1 ih =>
      obtain ⟨w, hw⟩ := h1
      rw [List.mem_singleton] at hw
      have hb0 := congrArg Prod.fst hw
      exact absurd (ih.2.symm.trans hb0) (by decide)
  obtain ⟨h0, h1⟩ := hchar a a ha
  exact absurd (h0.symm.trans h1) (by decide)

/-! ### The claims -/

/-- C1: for every valid input edge list (non-negative weights) the list
returned by `compute_order` is exactly a permutation of the node universe —
corrected: this holds only for self-loop-free inputs; an input with a
self-loop edge (its weight non-negative, so a valid input in the claim's
sense) makes `compute_order` raise `AssertionError` instead of returning
anything (see the counterexample). Weight signs play no role. -/
theorem C1_order_is_permutation (c : List Edge) (seed : Nat)
    (hnsl : noSelfLoop c) :
    ∃ res, compute_order c seed = .ok res ∧ res.Nodup ∧
      res.toFinset = nodes_from_connections_table c := by
  obtain ⟨res, fb, hok, hnd, hfin, -⟩ := computeOrder_main c seed hnsl
  refine ⟨res, ?_, hnd, hfin⟩
  show (computeOrderState c seed).map Prod.fst = .ok res
  rw [hok]
  rfl

/-- C1 witness: the concrete run on `[(0, 1, 5)]` with seed `0`. -/
theorem C1_witness :
    noSelfLoop [((0:Int), (1:Int), (5:Int))] ∧
    ∃ res, compute_order [((0:Int), (1:Int), (5:Int))] 0 = .ok res ∧
      res.Nodup ∧ res.toFinset =
        nodes_from_connections_table [((0:Int), (1:Int), (5:Int))] :=
  ⟨by decide, C1_order_is_permutation _ 0 (by decide)⟩

/-- C1 counterexample: `[(1, 1, 2)]` is a valid input in the claim's sense
(its weight is non-negative), yet `compute_order` raises `AssertionError`
and returns no permutation of the node universe `{1}`. -/
theorem C1_cex :
    validWeights [((1:Int), (1:Int), (2:Int))] ∧
    compute_order [((1:Int), (1:Int), (2:Int))] 0 =
      .error .assertionError :=
  ⟨by decide, by decide⟩

/-- C2: the result consists of the ordered node sequence plus the final
feedback total as a secondary result returned to the caller — corrected:
only the ordered sequence is returned (`return res`, line 245).  The
feedback total is computed and validated internally, and it does equal the
backward weight of the returned order, but it is not part of the value the
caller receives (see the counterexample: two runs with different internal
feedback totals return identical values). -/
theorem C2_order_only (c : List Edge) (seed : Nat) (hnsl : noSelfLoop c) :
    ∃ res fb, computeOrderState c seed = .ok (res, fb) ∧
      compute_order c seed = .ok res ∧
      fb = backwardOrig c res := by
  obtain ⟨res, fb, hok, -, -, hfb⟩ := computeOrder_main c seed hnsl
  refine ⟨res, fb, hok, ?_, hfb⟩
  show (computeOrderState c seed).map Prod.fst = .ok res
  rw [hok]
  rfl

/-- C2 witness: the concrete run on `[(0, 1, 5)]` with seed `0`. -/
theorem C2_witness :
    noSelfLoop [((0:Int), (1:Int), (5:Int))] ∧
    ∃ res fb, computeOrderState [((0:Int), (1:Int), (5:Int))] 0 =
        .ok (res, fb) ∧
      compute_order [((0:Int), (1:Int), (5:Int))] 0 = .ok res ∧
      fb = backwardOrig [((0:Int), (1:Int), (5:Int))] res :=
  ⟨by decide, C2_order_only _ 0 (by decide)⟩

/-- C2 counterexample: on `[(0, 1, 1), (1, 0, 1)]` and
`[(0, 1, 2), (1, 0, 2)]` the caller-visible results of `compute_order` are
identical although the internal feedback totals differ (`1` versus `2`):
the feedback total is not part of the returned value. -/
theorem C2_cex :
    compute_order [((0:Int), (1:Int), (1:Int)),
        ((1:Int), (0:Int), (1:Int))] 0 =
      compute_order [((0:Int), (1:Int), (2:Int)),
        ((1:Int), (0:Int), (2:Int))] 0 ∧
    (computeOrderState [((0:Int), (1:Int), (1:Int)),
      ((1:Int), (0:Int), (1:Int))] 0).map Prod.snd = .ok 1 ∧
    (computeOrderState [((0:Int), (1:Int), (2:Int)),
      ((1:Int), (0:Int), (2:Int))] 0).map Prod.snd = .ok 2 :=
  ⟨by decide, by decide, by decide⟩

/-- C3: the feedback total tracked at finalization equals, exactly, the
recomputed sum of weights of original (pre-resolution) edges whose target
position precedes their source position in the final order, and the
finalization assertion passes (a successful `.ok` result is only produced
after that check).  Stated for self-loop-free inputs: an input with a
self-loop aborts at the earlier post-resolution sanity check (lines 112-119)
and never reaches the finalization check, and for distinct endpoints the
claim's `position(v) ≤ position(u)` coincides with the code's strict
comparison. -/
theorem C3_feedback_identity (c : List Edge) (seed : Nat)
    (hnsl : noSelfLoop c) :
    ∃ res fb, computeOrderState c seed = .ok (res, fb) ∧
      fb = backwardOrig c res := by
  obtain ⟨res, fb, hok, -, -, hfb⟩ := computeOrder_main c seed hnsl
  exact ⟨res, fb, hok, hfb⟩

/-- C3 witness: the concrete 3-cycle `[(0,1,5), (1,2,5), (2,0,5)]`. -/
theorem C3_witness :
    noSelfLoop [((0:Int), (1:Int), (5:Int)), ((1:Int), (2:Int), (5:Int)),
      ((2:Int), (0:Int), (5:Int))] ∧
    ∃ res fb, computeOrderState [((0:Int), (1:Int), (5:Int)),
        ((1:Int), (2:Int), (5:Int)), ((2:Int), (0:Int), (5:Int))] 0 =
      .ok (res, fb) ∧
      fb = backwardOrig [((0:Int), (1:Int), (5:Int)),
        ((1:Int), (2:Int), (5:Int)), ((2:Int), (0:Int), (5:Int))] res :=
  ⟨by decide, C3_feedback_identity _ 0 (by decide)⟩

/-- C4: anti-parallel resolution of a pair `p` with weights
`a = w(p.1 → p.2)` and `b = w(p.2 → p.1)` — corrected: when `b < a` the
direction `p.1 → p.2` survives with weight `a − b` and the other direction
is deleted; when `a ≤ b` the direction `p.2 → p.1` survives with weight
`b − a` and the other direction is deleted; the feedback total increases by
exactly `min a b`.  On a tie (`a = b`) a surviving entry of weight `0` is
kept — both directions are *not* removed, contrary to the claim (see the
counterexample). -/
theorem C4_resolution (S : GState) (p : Nat × Nat) (a b : Int)
    (hsym : symW S) (hlt : p.2 < p.1)
    (h12 : S.outW p.1 p.2 = some a) (h21 : S.outW p.2 p.1 = some b) :
    ∃ T, resolvePair S p = .ok T ∧
      T.feedback = S.feedback + min a b ∧
      (if b < a
        then T.outW p.1 p.2 = some (a - b) ∧ T.outW p.2 p.1 = none
        else T.outW p.2 p.1 = some (b - a) ∧ T.outW p.1 p.2 = none) := by
  have hne : p.1 ≠ p.2 := by omega
  by_cases hab : b < a
  · refine ⟨_, resolvePair_gt hsym h12 h21 hab, ?_, ?_⟩
    · show S.feedback + b = S.feedback + min a b
      rw [min_eq_right (le_of_lt hab)]
    · rw [if_pos hab]
      show upd2 (upd2 S.outW p.2 p.1 none) p.1 p.2 (some (a - b)) p.1 p.2 =
          some (a - b) ∧
        upd2 (upd2 S.outW p.2 p.1 none) p.1 p.2 (some (a - b)) p.2 p.1 =
          none
      exact pairUpd_at hne
  · have hab' : a ≤ b := not_lt.mp hab
    refine ⟨_, resolvePair_le hsym h12 h21 hab', ?_, ?_⟩
    · show S.feedback + a = S.feedback + min a b
      rw [min_eq_left hab']
    · rw [if_neg hab]
      show upd2 (upd2 S.outW p.1 p.2 none) p.2 p.1 (some (b - a)) p.2 p.1 =
          some (b - a) ∧
        upd2 (upd2 S.outW p.1 p.2 none) p.2 p.1 (some (b - a)) p.1 p.2 =
          none
      exact pairUpd_at (fun hc => hne hc.symm)

/-- C4 witness: the tied pair of the input `[(0, 1, 5), (1, 0, 5)]` after
compaction (both directions weigh `5`). -/
theorem C4_witness :
    ∃ T, resolvePair (initGraph 2 [((0:Nat), (1:Nat), (5:Int)),
        ((1:Nat), (0:Nat), (5:Int))]) (1, 0) = .ok T ∧
      T.feedback = (initGraph 2 [((0:Nat), (1:Nat), (5:Int)),
        ((1:Nat), (0:Nat), (5:Int))]).feedback + min 5 5 ∧
      (if (5:Int) < 5
        then T.outW 1 0 = some (5 - 5) ∧ T.outW 0 1 = none
        else T.outW 0 1 = some (5 - 5) ∧ T.outW 1 0 = none) :=
  C4_resolution _ (1, 0) 5 5 (initGraph_symW _ _) (by decide) (by decide)
    (by decide)

/-- C4 counterexample: on the tie `[(0, 1, 5), (1, 0, 5)]` the resolution
phase keeps a surviving adjacency entry of weight `0` (the `else` branch of
lines 103-108 deletes only one direction and subtracts the full weight from
the other), so it is not the case that no edge remains between the pair. -/
theorem C4_cex :
    (resolveAll 2 (initGraph 2 (compactify
      (nodeOrderOf [((0:Int), (1:Int), (5:Int)),
        ((1:Int), (0:Int), (5:Int))] 0)
      [((0:Int), (1:Int), (5:Int)), ((1:Int), (0:Int), (5:Int))]))).map
        (fun S => S.outW 0 1) = .ok (some 0) := by
  decide

/-- C5: on an acyclic input the run succeeds, the feedback total is `0`, and
the returned order is a valid topological order — every edge's source is
placed strictly before its target. -/
theorem C5_acyclic_topological (c : List Edge) (seed : Nat)
    (hacy : acyclicE c) :
    ∃ res, computeOrderState c seed = .ok (res, 0) ∧
      compute_order c seed = .ok res ∧
      ∀ r ∈ c, List.indexOf r.1 res < List.indexOf r.2.1 res := by
  obtain ⟨res, hok, -, -, htopo⟩ := computeOrder_acyclic c seed hacy
  refine ⟨res, hok, ?_, htopo⟩
  show (computeOrderState c seed).map Prod.fst = .ok res
  rw [hok]
  rfl

/-- C5 witness: the concrete acyclic input `[(0, 1, 5)]`. -/
theorem C5_witness :
    ∃ res, computeOrderState [((0:Int), (1:Int), (5:Int))] 0 =
        .ok (res, 0) ∧
      compute_order [((0:Int), (1:Int), (5:Int))] 0 = .ok res ∧
      ∀ r ∈ [((0:Int), (1:Int), (5:Int))],
        List.indexOf r.1 res < List.indexOf r.2.1 res :=
  C5_acyclic_topological _ 0 acyclicE_single5

/-- C6: every iteration of the main loop on a reachable state with nodes
remaining follows the claimed preference: a sink is popped and appended to
the right list; otherwise a source is popped and appended to the left list;
otherwise a node is popped from the numeric bucket with the maximum key,
appended to the left list, and the sum of its current incoming weights is
added to the feedback total (in the source case the feedback total is
unchanged, its incoming sum being zero). -/
theorem C6_step_policy (nn : Nat) (S : GState) (hInv : Inv nn S)
    (hrne : S.remaining.Nonempty) (hns : noSelfE S) :
    ∃ n S', step nn S = .ok S' ∧ n ∈ S.remaining ∧
      (((bucketSet S.buckets .sinks).Nonempty ∧
        n ∈ bucketSet S.buckets .sinks ∧
        S'.right = S.right ++ [n] ∧ S'.left = S.left ∧
        S'.feedback = S.feedback) ∨
       (¬(bucketSet S.buckets .sinks).Nonempty ∧
        (bucketSet S.buckets .sources).Nonempty ∧
        n ∈ bucketSet S.buckets .sources ∧
        S'.left = S.left ++ [n] ∧ S'.right = S.right ∧
        S'.feedback = S.feedback) ∨
       (¬(bucketSet S.buckets .sinks).Nonempty ∧
        ¬(bucketSet S.buckets .sources).Nonempty ∧
        S'.left = S.left ++ [n] ∧ S'.right = S.right ∧
        S'.feedback = S.feedback + rowSum S.inW nn n ∧
        ∃ d : Int, n ∈ bucketSet S.buckets (.delta d) ∧
          ∀ p ∈ S.buckets, ∀ e : Int, p.1 = .delta e → e ≤ d)) := by
  obtain ⟨n, S', hstep, hn, -, -, -, -, -, hbr⟩ :=
    step_spec nn S hInv hrne hns
  refine ⟨n, S', hstep, hn, ?_⟩
  rcases hbr with ⟨hs, hr, hl, hf, -, hnb⟩ | ⟨hnsk, hl, hr, hf, hsub⟩
  · exact Or.inl ⟨hs, hnb, hr, hl, hf⟩
  · rcases hsub with ⟨hsrc, hnb, hz⟩ | ⟨hnsrc, d, hnb, hd⟩
    · refine Or.inr (Or.inl ⟨hnsk, hsrc, hnb, hl, hr, ?_⟩)
      rw [hf, hz, add_zero]
    · exact Or.inr (Or.inr ⟨hnsk, hnsrc, hl, hr, hf, d, hnb, hd⟩)

/-- C6 witness: the state after bucket construction on the one-node,
zero-edge graph. -/
theorem C6_witness :
    ∃ n S', step 1 (initBuckets 1 (initGraph 1 [])) = .ok S' ∧
      n ∈ (initBuckets 1 (initGraph 1 [])).remaining ∧
      (((bucketSet (initBuckets 1 (initGraph 1 [])).buckets
          .sinks).Nonempty ∧
        n ∈ bucketSet (initBuckets 1 (initGraph 1 [])).buckets .sinks ∧
        S'.right = (initBuckets 1 (initGraph 1 [])).right ++ [n] ∧
        S'.left = (initBuckets 1 (initGraph 1 [])).left ∧
        S'.feedback = (initBuckets 1 (initGraph 1 [])).feedback) ∨
       (¬(bucketSet (initBuckets 1 (initGraph 1 [])).buckets
          .sinks).Nonempty ∧
        (bucketSet (initBuckets 1 (initGraph 1 [])).buckets
          .sources).Nonempty ∧
        n ∈ bucketSet (initBuckets 1 (initGraph 1 [])).buckets .sources ∧
        S'.left = (initBuckets 1 (initGraph 1 [])).left ++ [n] ∧
        S'.right = (initBuckets 1 (initGraph 1 [])).right ∧
        S'.feedback = (initBuckets 1 (initGraph 1 [])).feedback) ∨
       (¬(bucketSet (initBuckets 1 (initGraph 1 [])).buckets
          .sinks).Nonempty ∧
        ¬(bucketSet (initBuckets 1 (initGraph 1 [])).buckets
          .sources).Nonempty ∧
        S'.left = (initBuckets 1 (initGraph 1 [])).left ++ [n] ∧
        S'.right = (initBuckets 1 (initGraph 1 [])).right ∧
        S'.feedback = (initBuckets 1 (initGraph 1 [])).feedback +
          rowSum (initBuckets 1 (initGraph 1 [])).inW 1 n ∧
        ∃ d : Int, n ∈ bucketSet (initBuckets 1 (initGraph 1 [])).buckets
            (.delta d) ∧
          ∀ p ∈ (initBuckets 1 (initGraph 1 [])).buckets, ∀ e : Int,
            p.1 = .delta e → e ≤ d)) :=
  C6_step_policy 1 (initBuckets 1 (initGraph 1 []))
    ⟨initGraph_symW 1 [],
     initGraph_entriesWf 1 [] (fun r hr => absurd hr (List.not_mem_nil r)),
     ⟨rfl, fun m _ => rfl⟩,
     List.nodup_nil, fun x hx => hx,
     fun x hx => absurd hx (List.not_mem_nil x), by decide⟩
    (by decide)
    (initGraph_noSelfE 1 [] (fun r hr => absurd hr (List.not_mem_nil r)))

/-- C7: the adjacency symmetry invariant — `output_dict[s][t] = w` iff
`input_dict[t][s] = w` — holds after the maps are built, after the
anti-parallel resolution phase, and after each node removal of the greedy
loop. -/
theorem C7_symmetry (nn : Nat) (ce : List CEdge) (S : GState) :
    symW (initGraph nn ce) ∧
    (symW S → ∀ T, resolveAll nn S = .ok T → symW T) ∧
    (Inv nn S → noSelfE S → S.remaining.Nonempty →
      ∀ U, step nn S = .ok U → symW U) := by
  refine ⟨initGraph_symW nn ce, ?_, ?_⟩
  · intro hsym T hT
    obtain ⟨T', hT', hsymT, -⟩ := resolveAll_spec nn S hsym
    have heq : T = T' := Except.ok.inj (hT.symm.trans hT')
    rw [heq]
    exact hsymT
  · intro hInv hns hrne U hU
    obtain ⟨n, S', hstep, -, -, -, -, hInv', -, -⟩ :=
      step_spec nn S hInv hrne hns
    have heq : U = S' := Except.ok.inj (hU.symm.trans hstep)
    rw [heq]
    exact hInv'.1

/-- C7 witness: the three stages instantiated on the one-node, zero-edge
graph. -/
theorem C7_witness :
    symW (initGraph 1 ([] : List CEdge)) ∧
    (symW (initBuckets 1 (initGraph 1 [])) → ∀ T,
      resolveAll 1 (initBuckets 1 (initGraph 1 [])) = .ok T → symW T) ∧
    (Inv 1 (initBuckets 1 (initGraph 1 [])) →
      noSelfE (initBuckets 1 (initGraph 1 [])) →
      (initBuckets 1 (initGraph 1 [])).remaining.Nonempty →
      ∀ U, step 1 (initBuckets 1 (initGraph 1 [])) = .ok U → symW U) :=
  C7_symmetry 1 [] (initBuckets 1 (initGraph 1 []))

/-- C8: malformed or negative-weight inputs raise `InvalidInputError` —
corrected: no such exception exists anywhere in the code.  A row with fewer
than three fields raises `IndexError` (the first field access, line 32); a
well-shaped row with a negative weight is accepted and processed like any
other, with no validation and no error (see the counterexample). -/
theorem C8_error_behavior (rows : List (List Int)) (seed : Nat) :
    ((¬ ∀ r ∈ rows, 3 ≤ r.length) →
      computeOrderRaw rows seed = .error .indexError) ∧
    ((∀ r ∈ rows, 3 ≤ r.length) →
      noSelfLoop (rows.map (fun r => (r.getD 0 0, r.getD 1 0, r.getD 2 0))) →
      ∃ res, computeOrderRaw rows seed = .ok res) := by
  constructor
  · intro h
    rw [computeOrderRaw, if_neg h]
  · intro h hnsl
    obtain ⟨res, fb, hok, -, -, -⟩ := computeOrder_main _ seed hnsl
    refine ⟨res, ?_⟩
    rw [computeOrderRaw, if_pos h]
    show (computeOrderState _ seed).map Prod.fst = .ok res
    rw [hok]
    rfl

/-- C8 witness: the malformed row `[0, 1]`. -/
theorem C8_witness :
    ((¬ ∀ r ∈ [[(0:Int), 1]], 3 ≤ r.length) →
      computeOrderRaw [[(0:Int), 1]] 0 = .error .indexError) ∧
    ((∀ r ∈ [[(0:Int), 1]], 3 ≤ r.length) →
      noSelfLoop ([[(0:Int), 1]].map
        (fun r => (r.getD 0 0, r.getD 1 0, r.getD 2 0))) →
      ∃ res, computeOrderRaw [[(0:Int), 1]] 0 = .ok res) :=
  C8_error_behavior [[(0:Int), 1]] 0

/-- C8 counterexample: the negative weight in `[(0, 1, -5)]` is accepted
silently — the run returns an order and no error of any kind — and the
malformed row `[0, 1]` raises `IndexError`, not an `InvalidInputError`. -/
theorem C8_cex :
    compute_order [((0:Int), (1:Int), (-5:Int))] 0 = .ok [0, 1] ∧
    computeOrderRaw [[(0:Int), 1]] 0 = .error .indexError :=
  ⟨by decide, by decide⟩

/-- C9: determinism — two runs on the same connection list with the same
seed return the same order (and the same internal feedback total).  The
embedding is a function of the input and the seed: the only nondeterminism
of the source, `random.shuffle` and `set.pop`, is modelled by the
seed-determined shuffle and the fixed pop policy that the spec's
reproducibility contract prescribes. -/
theorem C9_deterministic (c1 c2 : List Edge) (s1 s2 : Nat)
    (hc : c1 = c2) (hs : s1 = s2) :
    compute_order c1 s1 = compute_order c2 s2 ∧
    computeOrderState c1 s1 = computeOrderState c2 s2 := by
  rw [hc, hs]
  exact ⟨rfl, rfl⟩

/-- C9 witness: two identical concrete runs. -/
theorem C9_witness :
    compute_order [((0:Int), (1:Int), (5:Int))] 0 =
      compute_order [((0:Int), (1:Int), (5:Int))] 0 ∧
    computeOrderState [((0:Int), (1:Int), (5:Int))] 0 =
      computeOrderState [((0:Int), (1:Int), (5:Int))] 0 :=
  C9_deterministic _ _ 0 0 rfl rfl

/-- C10: a self-loop input makes `compute_order` fail instead of returning
an order — confirmed in effect, but with a different mechanism than
claimed: the failure is the `AssertionError` of the post-resolution sanity
checks (lines 112-119, `assert nd not in input_dict[ind]` with
`nd = ind = ` the self-loop node), raised before any bucket is built; the
greedy loop and `remove_from_bucket` are never reached, and no `KeyError`
occurs (see the counterexample). -/
theorem C10_selfloop_aborts (c : List Edge) (seed : Nat) (r : Edge)
    (hr : r ∈ c) (hself : r.1 = r.2.1) :
    compute_order c seed = .error .assertionError := by
  have hsym0 : symW (initGraph (nodeOrderOf c seed).length
      (compactify (nodeOrderOf c seed) c)) := initGraph_symW _ _
  have hsc : symCheck (nodeOrderOf c seed).length
      (initGraph (nodeOrderOf c seed).length
        (compactify (nodeOrderOf c seed) c)) := symW_symCheck hsym0
  obtain ⟨S1, hres, hsym1, hchar, -, -, -, -, -, -, -⟩ :=
    resolveAll_spec (nodeOrderOf c seed).length _ hsym0
  have hent0 : initOutW (compactify (nodeOrderOf c seed) c)
      (List.indexOf r.1 (nodeOrderOf c seed))
      (List.indexOf r.1 (nodeOrderOf c seed)) ≠ none := by
    have h := initOutW_of_mem (nodeOrderOf c seed) hr
    rw [← hself] at h
    exact h
  have hent1 : S1.outW (List.indexOf r.1 (nodeOrderOf c seed))
      (List.indexOf r.1 (nodeOrderOf c seed)) ≠ none := by
    rw [hchar _ _, if_neg (pairMem_antiPairs_self _)]
    exact hent0
  have hnap : ¬ apCheck (nodeOrderOf c seed).length S1 := by
    intro hap
    have hu : List.indexOf r.1 (nodeOrderOf c seed) ∈
        Finset.range (nodeOrderOf c seed).length :=
      Finset.mem_range.mpr (@endpoint_lt c seed r hr).1
    exact hent1 (hap.2 _ hu _ hu hent1).2
  show (computeOrderState c seed).map Prod.fst = .error .assertionError
  rw [computeOrderState_apFail c seed S1 hsc hres hnap]
  rfl

/-- C10 witness: the self-loop input `[(0, 0, 5)]` with seed `7`. -/
theorem C10_witness :
    compute_order [((0:Int), (0:Int), (5:Int))] 7 =
      .error .assertionError :=
  C10_selfloop_aborts _ 7 ((0:Int), (0:Int), (5:Int)) (by decide)
    (by decide)

/-- C10 counterexample: on `[(0, 0, 5)]` the failure is `AssertionError`,
not the `KeyError` that the claimed `remove_from_bucket` mechanism would
raise. -/
theorem C10_cex :
    compute_order [((0:Int), (0:Int), (5:Int))] 0 =
      .error .assertionError ∧
    compute_order [((0:Int), (0:Int), (5:Int))] 0 ≠ .error .keyError :=
  ⟨by decide, by decide⟩

end Sfas
